import Mathlib

/-!
Verification development for the demagnetize BitTorrent magnet-resolution
tool.  Python sources are shallowly embedded: byte strings become `List Nat`
(each element a byte value 0..255, though none of the embedded code depends
on the upper bound), integers become `Int`/`Nat`, fallible code returns
`Except`.  Each embedded definition mirrors one Python function of the
repository; the file then proves or refutes the specification claims about
them.
-/

/-! ## Bencode data model

`bencode.py` encodes byte strings, integers, lists and dicts.  A decoded
value is one of the same four shapes (dict keys are byte strings; Python
dicts preserve insertion order, so a dict is embedded as an association
list in encounter order). -/

inductive BValue where
  | bstr (s : List Nat) : BValue
  | bint (n : Int) : BValue
  | blist (vs : List BValue) : BValue
  | bdict (es : List (List Nat × BValue)) : BValue

/-- Byte value of an ASCII decimal digit test, `bytes.isdigit` on one byte. -/
def isDigitByte (c : Nat) : Bool := 48 ≤ c && c ≤ 57

/-- Value of a string of ASCII digit bytes, `int(num, 10)` on a validated
digit string. -/
def digitsToNat (ds : List Nat) : Nat := ds.foldl (fun acc d => 10 * acc + (d - 48)) 0

/-- Decimal digit bytes of `n`, fuel-driven so that it reduces by `rfl`
(the fuel argument strictly dominates the number of divisions by 10). -/
def natDigitsAux : Nat → Nat → List Nat
  | 0, n => [48 + n % 10]
  | f + 1, n => if n < 10 then [48 + n] else natDigitsAux f (n / 10) ++ [48 + n % 10]

/-- Decimal ASCII encoding of a natural number, as produced by `b"%d"`. -/
def natDigits (n : Nat) : List Nat := natDigitsAux n n

/-- Decimal ASCII encoding of an integer, as produced by `b"%d"`: a leading
`-` (byte 45) for negative values. -/
def intDigits (n : Int) : List Nat :=
  if n < 0 then 45 :: natDigits (-n).toNat else natDigits n.toNat

/-- Strict lexicographic order on byte strings: Python `a < b` on `bytes`. -/
def bytesLt : List Nat → List Nat → Bool
  | [], [] => false
  | [], _ :: _ => true
  | _ :: _, [] => false
  | a :: as, b :: bs => if a < b then true else if b < a then false else bytesLt as bs

/-- Negation of the decoder's `key <= prev_key` rejection test: the next
dict key is strictly above the previous one (or there is no previous one). -/
def prevOk (prev : Option (List Nat)) (k : List Nat) : Bool :=
  match prev with
  | none => true
  | some p => bytesLt p k

/-- Insert one dict entry into a key-sorted entry list, keeping entries with
smaller keys in front (the inner step of a stable ascending sort). -/
def insertEntry (kv : List Nat × BValue) :
    List (List Nat × BValue) → List (List Nat × BValue)
  | [] => [kv]
  | kv2 :: rest =>
    if bytesLt kv2.1 kv.1 then kv2 :: insertEntry kv rest else kv :: kv2 :: rest

/-- Stable ascending key sort of dict entries: `sorted(obj.keys())` in
`bencode`, which then emits each key's entry in that order. -/
def sortEntries (es : List (List Nat × BValue)) : List (List Nat × BValue) :=
  es.foldr insertEntry []

/-! ## Encoder: `bencode.bencode`

Python's encoder sorts each dict's keys on the way out
(`for key in sorted(obj.keys())`).  The embedding factors that into a deep
key-sorting pass (`sortValue`) followed by an order-preserving emitter
(`bencodeSorted`); their composition `bencode` produces exactly the bytes
of `bencode.bencode`. -/

mutual

/-- Sort the keys of every dict inside a value, as the encoder's
`sorted(obj.keys())` does at each dict it reaches. -/
def sortValue : BValue → BValue
  | .bstr s => .bstr s
  | .bint n => .bint n
  | .blist vs => .blist (sortValueList vs)
  | .bdict es => .bdict (sortEntries (sortValueEntries es))

/-- `sortValue` at every element of a list. -/
def sortValueList : List BValue → List BValue
  | [] => []
  | v :: vs => sortValue v :: sortValueList vs

/-- `sortValue` at every value of a dict entry list. -/
def sortValueEntries : List (List Nat × BValue) → List (List Nat × BValue)
  | [] => []
  | (k, v) :: es => (k, sortValue v) :: sortValueEntries es

end

mutual

/-- Emitter half of `bencode.bencode`: byte strings become `<len>:<bytes>`,
integers `i<n>e`, lists `l...e`, dicts `d...e` with entries emitted in the
order given (the sorting half is `sortValue`). -/
def bencodeSorted : BValue → List Nat
  | .bstr s => natDigits s.length ++ 58 :: s
  | .bint n => 105 :: (intDigits n ++ [101])
  | .blist vs => 108 :: (bencodeList vs ++ [101])
  | .bdict es => 100 :: (bencodeEntries es ++ [101])

/-- Concatenated encodings of the elements of a list value. -/
def bencodeList : List BValue → List Nat
  | [] => []
  | v :: vs => bencodeSorted v ++ bencodeList vs

/-- Concatenated `bencode(key) + bencode(value)` runs of dict entries (the
key encoding `<len>:<bytes>` is inlined). -/
def bencodeEntries : List (List Nat × BValue) → List Nat
  | [] => []
  | (k, v) :: es => (natDigits k.length ++ 58 :: k) ++ bencodeSorted v ++ bencodeEntries es

end

/-- Embedding of `bencode.bencode`: emit the value with every dict's
entries in ascending key order. -/
def bencode (v : BValue) : List Nat := bencodeSorted (sortValue v)

/-! ## Decoder: `bencode.Unbencoder`

The Python decoder walks `buff` with a cursor; the embedding passes the
remaining suffix instead.  The recursion of `decode_next` through container
loops is driven by explicit fuel; `unbencode` supplies `length + 1` fuel,
and running out models Python's recursion limit
(`UnbencodeError("Too many nested structures")`). -/

inductive BErr where
  | short
  | nonDigit
  | invalidInt
  | intParse
  | nonBytesKey
  | unsortedKeys
  | invalidByte
  | trailing
  | fuelOut

/-- Loop of `Unbencoder.read_int`: consume bytes until the `stop` byte,
requiring each to be a digit, or a `-` (45) in first position
(`first` tracks Python's `not digits`). -/
def readRaw (stop : Nat) : List Nat → Bool → Except BErr (List Nat × List Nat)
  | [], _ => .error .short
  | d :: t, first =>
    if d = stop then .ok ([], t)
    else if isDigitByte d || (d = 45 && first) then
      match readRaw stop t false with
      | .error e => .error e
      | .ok (ds, u) => .ok (d :: ds, u)
    else .error .nonDigit

/-- Embedding of `Unbencoder.read_int`: reject an empty digit string, a
leading zero on a multi-digit number, and a `-0` prefix; `.intParse` is the
`ValueError` Python's `int` raises on the remaining bad case `"-"`. -/
def readInt (stop : Nat) (s : List Nat) : Except BErr (Int × List Nat) :=
  match readRaw stop s true with
  | .error e => .error e
  | .ok ([], _) => .error .invalidInt
  | .ok (d0 :: dr, u) =>
    if d0 = 48 && !dr.isEmpty then .error .invalidInt
    else if d0 = 45 && dr.head? = some 48 then .error .invalidInt
    else if d0 = 45 then
      match dr with
      | [] => .error .intParse
      | _ :: _ => .ok (-(digitsToNat dr : Int), u)
    else .ok ((digitsToNat (d0 :: dr) : Int), u)

/-- Embedding of `Unbencoder.read_bytes`: take `length` bytes or fail with
`Short input`. -/
def readBytes (length : Nat) (s : List Nat) : Except BErr (List Nat × List Nat) :=
  if length ≤ s.length then .ok (s.take length, s.drop length) else .error .short

mutual

/-- Embedding of `Unbencoder.decode_next`: dispatch on the first byte
(`d` = 100, `l` = 108, `i` = 105, an ASCII digit for a byte string; anything
else is invalid).  In the byte-string branch `read_int` always returns a
non-negative value because the first byte is a digit and `-` is only
permitted in first position, so `Int.toNat` is exact. -/
def decodeNext : Nat → List Nat → Except BErr (BValue × List Nat)
  | 0, _ => .error .fuelOut
  | _ + 1, [] => .error .short
  | f + 1, c :: s =>
    if c = 100 then
      match decodeEntries f s none with
      | .error e => .error e
      | .ok (es, t) => .ok (.bdict es, t)
    else if c = 108 then
      match decodeElems f s with
      | .error e => .error e
      | .ok (vs, t) => .ok (.blist vs, t)
    else if c = 105 then
      match readInt 101 s with
      | .error e => .error e
      | .ok (n, t) => .ok (.bint n, t)
    else if isDigitByte c then
      match readInt 58 (c :: s) with
      | .error e => .error e
      | .ok (n, t) =>
        match readBytes n.toNat t with
        | .error e => .error e
        | .ok (b, u) => .ok (.bstr b, u)
    else .error .invalidByte

/-- List-body loop of `decode_next`: elements until a terminating `e`. -/
def decodeElems : Nat → List Nat → Except BErr (List BValue × List Nat)
  | 0, _ => .error .fuelOut
  | f + 1, s =>
    if s.head? = some 101 then .ok ([], s.tail)
    else
      match decodeNext f s with
      | .error e => .error e
      | .ok (v, s1) =>
        match decodeElems f s1 with
        | .error e => .error e
        | .ok (vs, t) => .ok (v :: vs, t)

/-- Dict-body loop of `decode_next`: `key value` pairs until a terminating
`e`; each key must decode to a byte string and be strictly greater than the
previous key (`key <= prev_key` raises `Dict keys not in sorted order`). -/
def decodeEntries : Nat → List Nat → Option (List Nat) →
    Except BErr (List (List Nat × BValue) × List Nat)
  | 0, _, _ => .error .fuelOut
  | f + 1, s, prev =>
    if s.head? = some 101 then .ok ([], s.tail)
    else
      match decodeNext f s with
      | .error e => .error e
      | .ok (.bstr k, s1) =>
        if prevOk prev k = false then
          .error .unsortedKeys
        else
          match decodeNext f s1 with
          | .error e => .error e
          | .ok (v, s2) =>
            match decodeEntries f s2 (some k) with
            | .error e => .error e
            | .ok (es, t) => .ok ((k, v) :: es, t)
      | .ok (_, _) => .error .nonBytesKey

end

/-- Embedding of `bencode.partial_unbencode`: decode one value off the front
of the buffer, returning it with the trailing bytes. -/
def unbencodeSplit (blob : List Nat) : Except BErr (BValue × List Nat) :=
  decodeNext (blob.length + 1) blob

/-- Embedding of `bencode.unbencode`: strict decode, rejecting trailing
bytes. -/
def unbencode (blob : List Nat) : Except BErr BValue :=
  match unbencodeSplit blob with
  | .error e => .error e
  | .ok (v, []) => .ok v
  | .ok (_, _ :: _) => .error .trailing

/-! ## The decoder's accepted values

Dict keys of every decoded dictionary are strictly ascending; `accepted`
is exactly that invariant, stated recursively over a value. -/

/-- Strict ascent of dict keys starting above an optional lower bound. -/
def chainKeys : Option (List Nat) → List (List Nat × BValue) → Bool
  | _, [] => true
  | prev, (k, _) :: es => prevOk prev k && chainKeys (some k) es

mutual

/-- A value the bencode decoder can produce: every dictionary inside has
strictly ascending keys. -/
def accepted : BValue → Bool
  | .bstr _ => true
  | .bint _ => true
  | .blist vs => acceptedList vs
  | .bdict es => chainKeys none es && acceptedEntries es

/-- `accepted` at every element of a list. -/
def acceptedList : List BValue → Bool
  | [] => true
  | v :: vs => accepted v && acceptedList vs

/-- `accepted` at every value of a dict entry list. -/
def acceptedEntries : List (List Nat × BValue) → Bool
  | [] => true
  | (_, v) :: es => accepted v && acceptedEntries es

end

example : bencode (.bdict [([99, 111, 119], .bstr [109, 111, 111]),
    ([115, 112, 97, 109], .bstr [101, 103, 103, 115])]) =
    [100, 51, 58, 99, 111, 119, 51, 58, 109, 111, 111, 52, 58, 115, 112, 97,
     109, 52, 58, 101, 103, 103, 115, 101] := rfl

example : unbencode [105, 45, 49, 48, 101] = .ok (.bint (-10)) := rfl

/-! ## Decimal digit lemmas -/

theorem natDigitsAux_ne_nil (f n : Nat) : natDigitsAux f n ≠ [] := by
  cases f with
  | zero => simp [natDigitsAux]
  | succ f =>
    simp only [natDigitsAux]
    split
    · simp
    · simp

theorem natDigitsAux_digits (f : Nat) : ∀ n d, d ∈ natDigitsAux f n → isDigitByte d = true := by
  induction f with
  | zero =>
    intro n d hd
    simp only [natDigitsAux, List.mem_singleton] at hd
    subst hd
    have : n % 10 < 10 := Nat.mod_lt _ (by omega)
    simp only [isDigitByte, Bool.and_eq_true, decide_eq_true_eq]
    omega
  | succ f ih =>
    intro n d hd
    simp only [natDigitsAux] at hd
    split at hd
    · simp only [List.mem_singleton] at hd
      subst hd
      simp only [isDigitByte, Bool.and_eq_true, decide_eq_true_eq]
      omega
    · rw [List.mem_append] at hd
      rcases hd with hd | hd
      · exact ih _ _ hd
      · simp only [List.mem_singleton] at hd
        subst hd
        have : n % 10 < 10 := Nat.mod_lt _ (by omega)
        simp only [isDigitByte, Bool.and_eq_true, decide_eq_true_eq]
        omega

theorem digitsToNat_append_one (ds : List Nat) (d : Nat) :
    digitsToNat (ds ++ [d]) = 10 * digitsToNat ds + (d - 48) := by
  simp [digitsToNat, List.foldl_append]

theorem natDigitsAux_val (f : Nat) : ∀ n, n ≤ f → digitsToNat (natDigitsAux f n) = n := by
  induction f with
  | zero =>
    intro n hn
    have : n = 0 := by omega
    subst this
    simp [natDigitsAux, digitsToNat]
  | succ f ih =>
    intro n hn
    simp only [natDigitsAux]
    split
    · simp only [digitsToNat, List.foldl_cons, List.foldl_nil]
      omega
    · rename_i h10
      have hlt : n / 10 < n := Nat.div_lt_self (by omega) (by omega)
      rw [digitsToNat_append_one, ih (n / 10) (by omega)]
      have := Nat.div_add_mod n 10
      omega

theorem natDigits_val (n : Nat) : digitsToNat (natDigits n) = n :=
  natDigitsAux_val n n (Nat.le_refl n)

theorem natDigitsAux_head_ne_zero (f : Nat) :
    ∀ n c, n ≤ f → n ≠ 0 → (natDigitsAux f n).head? = some c → c ≠ 48 := by
  induction f with
  | zero =>
    intro n c hn h0
    omega
  | succ f ih =>
    intro n c hn h0 hc
    simp only [natDigitsAux] at hc
    split at hc
    · simp only [List.head?_cons, Option.some.injEq] at hc
      omega
    · rename_i h10
      obtain ⟨d, t, ht⟩ := List.exists_cons_of_ne_nil (natDigitsAux_ne_nil f (n / 10))
      rw [ht, List.cons_append, List.head?_cons, Option.some.injEq] at hc
      have hlt : n / 10 < n := Nat.div_lt_self (by omega) (by omega)
      have := ih (n / 10) d (by omega) (by omega) (by rw [ht]; rfl)
      omega

/-! ## `read_int` round-trip lemmas -/

theorem readRaw_digits (stop : Nat) (hstop : 57 < stop) :
    ∀ ds : List Nat, (∀ d ∈ ds, isDigitByte d = true) →
      ∀ first rest, readRaw stop (ds ++ stop :: rest) first = .ok (ds, rest) := by
  intro ds
  induction ds with
  | nil =>
    intro _ first rest
    simp [readRaw]
  | cons d ds ih =>
    intro hds first rest
    have hdig : isDigitByte d = true := hds d (List.mem_cons_self d ds)
    have hdle : d ≤ 57 := by
      simp only [isDigitByte, Bool.and_eq_true, decide_eq_true_eq] at hdig
      omega
    simp only [List.cons_append, readRaw]
    rw [if_neg (by omega), if_pos (by simp [hdig])]
    simp only [List.append_eq]
    rw [ih (fun x hx => hds x (List.mem_cons_of_mem d hx)) false rest]

theorem readInt_natDigits (stop : Nat) (hstop : 57 < stop) (m : Nat) (rest : List Nat) :
    readInt stop (natDigits m ++ stop :: rest) = .ok ((m : Int), rest) := by
  obtain ⟨d, t, ht⟩ := List.exists_cons_of_ne_nil (natDigitsAux_ne_nil m m)
  have htn : natDigits m = d :: t := ht
  have hdig : ∀ x ∈ natDigits m, isDigitByte x = true := fun x hx => natDigitsAux_digits m m x hx
  have hraw := readRaw_digits stop hstop (natDigits m) hdig true rest
  have hd : isDigitByte d = true := hdig d (by rw [htn]; exact List.mem_cons_self d t)
  have hdrange : 48 ≤ d ∧ d ≤ 57 := by
    simp only [isDigitByte, Bool.and_eq_true, decide_eq_true_eq] at hd
    exact hd
  have h48 : d = 48 → t = [] := by
    intro h
    by_cases hm : m = 0
    · subst hm
      have : natDigitsAux 0 0 = [48] := rfl
      rw [this] at ht
      exact (List.cons.injEq _ _ _ _ ▸ ht).2.symm
    · exact absurd h (natDigitsAux_head_ne_zero m m d (Nat.le_refl m) hm (by rw [ht]; rfl))
  have hval : digitsToNat (d :: t) = m := by rw [← htn]; exact natDigits_val m
  have hc1 : (decide (d = 48) && !t.isEmpty) = false := by
    rcases Decidable.em (d = 48) with h | h
    · rw [h48 h]
      simp
    · simp [h]
  have hc2 : ¬(d = 45) := by omega
  unfold readInt
  rw [htn] at hraw ⊢
  rw [hraw]
  simp [hc1, hc2, hval]

theorem readInt_intDigits (stop : Nat) (hstop : 57 < stop) (n : Int) (rest : List Nat) :
    readInt stop (intDigits n ++ stop :: rest) = .ok (n, rest) := by
  by_cases hn : n < 0
  · simp only [intDigits, if_pos hn]
    have hm : (-n).toNat ≠ 0 := by omega
    obtain ⟨d, t, ht⟩ :=
      List.exists_cons_of_ne_nil (natDigitsAux_ne_nil (-n).toNat (-n).toNat)
    have htn : natDigits (-n).toNat = d :: t := ht
    have hdig : ∀ x ∈ natDigits (-n).toNat, isDigitByte x = true := fun x hx =>
      natDigitsAux_digits (-n).toNat (-n).toNat x hx
    have hraw := readRaw_digits stop hstop (natDigits (-n).toNat) hdig false rest
    have hd48 : d ≠ 48 :=
      natDigitsAux_head_ne_zero (-n).toNat (-n).toNat d (Nat.le_refl _) hm (by rw [ht]; rfl)
    have hval : digitsToNat (d :: t) = (-n).toNat := by rw [← htn]; exact natDigits_val _
    have hstep : readRaw stop (45 :: (natDigits (-n).toNat ++ stop :: rest)) true
        = match readRaw stop (natDigits (-n).toNat ++ stop :: rest) false with
          | .error e => .error e
          | .ok (ds, u) => .ok (45 :: ds, u) := by
      simp only [readRaw]
      rw [if_neg (by omega), if_pos (by simp [isDigitByte])]
    unfold readInt
    rw [List.cons_append, hstep, hraw, htn]
    have hint : -((digitsToNat (d :: t) : Nat) : Int) = n := by
      rw [hval]
      omega
    simp [hd48, hint]
  · simp only [intDigits, if_neg hn]
    rw [readInt_natDigits stop hstop n.toNat rest]
    have : ((n.toNat : Nat) : Int) = n := by omega
    rw [this]

/-! ## Byte-string order lemmas -/

theorem bytesLt_asymm : ∀ a b : List Nat, bytesLt a b = true → bytesLt b a = false := by
  intro a
  induction a with
  | nil =>
    intro b _
    cases b with
    | nil => rfl
    | cons c bs => rfl
  | cons x as ih =>
    intro b hab
    cases b with
    | nil => simp [bytesLt] at hab
    | cons y bs =>
      simp only [bytesLt] at hab ⊢
      by_cases hxy : x < y
      · rw [if_neg (show ¬(y < x) by omega), if_pos hxy]
      · rw [if_neg hxy] at hab
        by_cases hyx : y < x
        · rw [if_pos hyx] at hab
          simp at hab
        · rw [if_neg hyx] at hab
          rw [if_neg hyx, if_neg hxy]
          exact ih bs hab

theorem chainKeys_drop_bound (p : List Nat) (es : List (List Nat × BValue)) :
    chainKeys (some p) es = true → chainKeys none es = true := by
  cases es with
  | nil => intro _; rfl
  | cons kv rest =>
    obtain ⟨k, v⟩ := kv
    simp only [chainKeys, prevOk, Bool.and_eq_true, true_and]
    tauto

theorem insertEntry_front (kv : List Nat × BValue) (es : List (List Nat × BValue))
    (h : chainKeys (some kv.1) es = true) : insertEntry kv es = kv :: es := by
  cases es with
  | nil => rfl
  | cons kv2 rest =>
    obtain ⟨k2, v2⟩ := kv2
    simp only [chainKeys, prevOk, Bool.and_eq_true] at h
    simp only [insertEntry]
    rw [if_neg (by rw [bytesLt_asymm _ _ h.1]; simp)]

theorem sortEntries_of_chain :
    ∀ es : List (List Nat × BValue), chainKeys none es = true → sortEntries es = es := by
  intro es
  induction es with
  | nil => intro _; rfl
  | cons kv rest ih =>
    obtain ⟨k, v⟩ := kv
    intro h
    simp only [chainKeys, Bool.and_eq_true] at h
    have hrest : sortEntries rest = rest := ih (chainKeys_drop_bound k rest h.2)
    simp only [sortEntries, List.foldr_cons] at hrest ⊢
    rw [hrest]
    exact insertEntry_front (k, v) rest h.2

/-! ## Shape facts about the encoder -/

theorem natDigits_ne_nil (n : Nat) : natDigits n ≠ [] := natDigitsAux_ne_nil n n

theorem intDigits_ne_nil (n : Int) : intDigits n ≠ [] := by
  unfold intDigits
  split
  · simp
  · exact natDigits_ne_nil _

theorem bencodeSorted_length (v : BValue) : 2 ≤ (bencodeSorted v).length := by
  cases v with
  | bstr s =>
    obtain ⟨d, t, ht⟩ := List.exists_cons_of_ne_nil (natDigits_ne_nil s.length)
    simp [bencodeSorted, ht]
    omega
  | bint n =>
    obtain ⟨d, t, ht⟩ := List.exists_cons_of_ne_nil (intDigits_ne_nil n)
    simp [bencodeSorted, ht]
  | blist vs => simp [bencodeSorted]
  | bdict es => simp [bencodeSorted]

theorem bencodeSorted_head (v : BValue) :
    ∃ c t, bencodeSorted v = c :: t ∧
      (c = 100 ∨ c = 108 ∨ c = 105 ∨ (48 ≤ c ∧ c ≤ 57)) := by
  cases v with
  | bstr s =>
    obtain ⟨d, t, ht⟩ := List.exists_cons_of_ne_nil (natDigits_ne_nil s.length)
    have hd : isDigitByte d = true := by
      apply natDigitsAux_digits s.length s.length
      rw [show natDigitsAux s.length s.length = natDigits s.length from rfl, ht]
      exact List.mem_cons_self d t
    simp only [isDigitByte, Bool.and_eq_true, decide_eq_true_eq] at hd
    refine ⟨d, t ++ 58 :: s, ?_, by omega⟩
    simp [bencodeSorted, ht]
  | bint n => exact ⟨105, intDigits n ++ [101], rfl, by omega⟩
  | blist vs => exact ⟨108, bencodeList vs ++ [101], rfl, by omega⟩
  | bdict es => exact ⟨100, bencodeEntries es ++ [101], rfl, by omega⟩

/-- Decoding the byte-string encoding `<len>:<bytes>` off the front of a
buffer returns the bytes and the remaining buffer. -/
theorem decodeNext_strEnc (f : Nat) (k rest : List Nat) :
    decodeNext (f + 1) ((natDigits k.length ++ 58 :: k) ++ rest) = .ok (.bstr k, rest) := by
  obtain ⟨d, t, ht⟩ := List.exists_cons_of_ne_nil (natDigits_ne_nil k.length)
  have hd : isDigitByte d = true := by
    apply natDigitsAux_digits k.length k.length
    rw [show natDigitsAux k.length k.length = natDigits k.length from rfl, ht]
    exact List.mem_cons_self d t
  have hdrange : 48 ≤ d ∧ d ≤ 57 := by
    simp only [isDigitByte, Bool.and_eq_true, decide_eq_true_eq] at hd
    exact hd
  have harr : (natDigits k.length ++ 58 :: k) ++ rest
      = d :: (t ++ 58 :: (k ++ rest)) := by
    rw [ht]
    simp
  rw [harr]
  simp only [decodeNext]
  rw [if_neg (by omega), if_neg (by omega), if_neg (by omega), if_pos hd]
  have hread : readInt 58 (d :: (t ++ 58 :: (k ++ rest))) = .ok ((k.length : Int), k ++ rest) := by
    have := readInt_natDigits 58 (by omega) k.length (k ++ rest)
    rw [ht] at this
    simpa using this
  rw [hread]
  have htn : ((k.length : Int)).toNat = k.length := rfl
  simp only [htn, readBytes]
  rw [if_pos (by simp)]
  rw [List.take_left, List.drop_left]

/-! ## Sorting is the identity on accepted values -/

mutual

theorem sortValue_accepted : ∀ v : BValue, accepted v = true → sortValue v = v
  | .bstr _, _ => rfl
  | .bint _, _ => rfl
  | .blist vs, h => by
    have h2 : acceptedList vs = true := h
    simp only [sortValue]
    rw [sortValueList_accepted vs h2]
  | .bdict es, h => by
    have h2 : (chainKeys none es && acceptedEntries es) = true := h
    rw [Bool.and_eq_true] at h2
    simp only [sortValue]
    rw [sortValueEntries_accepted es h2.2, sortEntries_of_chain es h2.1]

theorem sortValueList_accepted : ∀ vs : List BValue, acceptedList vs = true → sortValueList vs = vs
  | [], _ => rfl
  | v :: vs, h => by
    have h2 : (accepted v && acceptedList vs) = true := h
    rw [Bool.and_eq_true] at h2
    simp only [sortValueList]
    rw [sortValue_accepted v h2.1, sortValueList_accepted vs h2.2]

theorem sortValueEntries_accepted :
    ∀ es : List (List Nat × BValue), acceptedEntries es = true → sortValueEntries es = es
  | [], _ => rfl
  | (k, v) :: es, h => by
    have h2 : (accepted v && acceptedEntries es) = true := h
    rw [Bool.and_eq_true] at h2
    simp only [sortValueEntries]
    rw [sortValue_accepted v h2.1, sortValueEntries_accepted es h2.2]

end

theorem bencode_of_accepted (v : BValue) (h : accepted v = true) :
    bencode v = bencodeSorted v := by
  unfold bencode
  rw [sortValue_accepted v h]


/-! ## Round trip: decoding an encoding -/

mutual

theorem decodeNext_enc : ∀ v : BValue, accepted v = true → ∀ (rest : List Nat) (f : Nat),
    (bencodeSorted v).length ≤ f → decodeNext f (bencodeSorted v ++ rest) = .ok (v, rest)
  | .bstr s, _, rest, f, hf => by
    obtain ⟨f', rfl⟩ : ∃ f', f = f' + 1 := ⟨f - 1, by
      have := bencodeSorted_length (.bstr s)
      omega⟩
    exact decodeNext_strEnc f' s rest
  | .bint n, _, rest, f, hf => by
    obtain ⟨f', rfl⟩ : ∃ f', f = f' + 1 := ⟨f - 1, by
      have := bencodeSorted_length (.bint n)
      omega⟩
    show decodeNext (f' + 1) ((105 :: (intDigits n ++ [101])) ++ rest) = _
    rw [List.cons_append, List.append_assoc, List.singleton_append]
    simp only [decodeNext]
    rw [readInt_intDigits 101 (by omega) n rest]
    all_goals rfl
  | .blist vs, h, rest, f, hf => by
    have hacc : acceptedList vs = true := h
    obtain ⟨f', rfl⟩ : ∃ f', f = f' + 1 := ⟨f - 1, by
      have := bencodeSorted_length (.blist vs)
      omega⟩
    show decodeNext (f' + 1) ((108 :: (bencodeList vs ++ [101])) ++ rest) = _
    rw [List.cons_append, List.append_assoc, List.singleton_append]
    simp only [decodeNext]
    rw [decodeElems_enc vs hacc rest f' (by
      have hlen : (bencodeSorted (.blist vs)).length = (bencodeList vs).length + 2 := by
        simp [bencodeSorted]
      omega)]
    all_goals rfl
  | .bdict es, h, rest, f, hf => by
    have h2 : (chainKeys none es && acceptedEntries es) = true := h
    rw [Bool.and_eq_true] at h2
    obtain ⟨f', rfl⟩ : ∃ f', f = f' + 1 := ⟨f - 1, by
      have := bencodeSorted_length (.bdict es)
      omega⟩
    show decodeNext (f' + 1) ((100 :: (bencodeEntries es ++ [101])) ++ rest) = _
    rw [List.cons_append, List.append_assoc, List.singleton_append]
    simp only [decodeNext]
    rw [decodeEntries_enc es none h2.1 h2.2 rest f' (by
      have hlen : (bencodeSorted (.bdict es)).length = (bencodeEntries es).length + 2 := by
        simp [bencodeSorted]
      omega)]
    all_goals rfl

theorem decodeElems_enc : ∀ vs : List BValue, acceptedList vs = true →
    ∀ (rest : List Nat) (f : Nat), (bencodeList vs).length + 1 ≤ f →
    decodeElems f (bencodeList vs ++ 101 :: rest) = .ok (vs, rest)
  | [], _, rest, f, hf => by
    obtain ⟨f', rfl⟩ : ∃ f', f = f' + 1 := ⟨f - 1, by omega⟩
    show decodeElems (f' + 1) ([] ++ 101 :: rest) = _
    rw [List.nil_append]
    simp [decodeElems]
  | v :: vs, h, rest, f, hf => by
    have h2 : (accepted v && acceptedList vs) = true := h
    rw [Bool.and_eq_true] at h2
    obtain ⟨f', rfl⟩ : ∃ f', f = f' + 1 := ⟨f - 1, by omega⟩
    have hflen : (bencodeSorted v).length + (bencodeList vs).length ≤ f' := by
      have : (bencodeList (v :: vs)).length =
          (bencodeSorted v).length + (bencodeList vs).length := by
        simp [bencodeList]
      omega
    have hvlen := bencodeSorted_length v
    show decodeElems (f' + 1) ((bencodeSorted v ++ bencodeList vs) ++ 101 :: rest) = _
    rw [List.append_assoc]
    obtain ⟨c, t, hct, hc⟩ := bencodeSorted_head v
    have hcne : c ≠ 101 := by
      rcases hc with h1 | h1 | h1 | h1 <;> omega
    have hhead : (bencodeSorted v ++ (bencodeList vs ++ 101 :: rest)).head? = some c := by
      rw [hct]
      rfl
    simp only [decodeElems]
    rw [if_neg (by
      rw [hhead]
      simp only [Option.some.injEq]
      exact hcne)]
    rw [decodeNext_enc v h2.1 (bencodeList vs ++ 101 :: rest) f' (by omega)]
    simp only [decodeElems_enc vs h2.2 rest f' (by omega)]

theorem decodeEntries_enc : ∀ (es : List (List Nat × BValue)) (prev : Option (List Nat)),
    chainKeys prev es = true → acceptedEntries es = true →
    ∀ (rest : List Nat) (f : Nat), (bencodeEntries es).length + 1 ≤ f →
    decodeEntries f (bencodeEntries es ++ 101 :: rest) prev = .ok (es, rest)
  | [], prev, _, _, rest, f, hf => by
    obtain ⟨f', rfl⟩ : ∃ f', f = f' + 1 := ⟨f - 1, by omega⟩
    show decodeEntries (f' + 1) ([] ++ 101 :: rest) prev = _
    rw [List.nil_append]
    simp [decodeEntries]
  | (k, v) :: es, prev, hch, hacc, rest, f, hf => by
    have hch2 : (prevOk prev k && chainKeys (some k) es) = true := hch
    rw [Bool.and_eq_true] at hch2
    have hacc2 : (accepted v && acceptedEntries es) = true := hacc
    rw [Bool.and_eq_true] at hacc2
    have hklen : 1 ≤ (natDigits k.length).length := by
      obtain ⟨d, t, ht⟩ := List.exists_cons_of_ne_nil (natDigits_ne_nil k.length)
      simp [ht]
    have hvlen := bencodeSorted_length v
    have helen : (bencodeEntries ((k, v) :: es)).length =
        (natDigits k.length).length + 1 + k.length + (bencodeSorted v).length
          + (bencodeEntries es).length := by
      simp [bencodeEntries]
      omega
    obtain ⟨f', rfl⟩ : ∃ f', f = f' + 1 := ⟨f - 1, by omega⟩
    show decodeEntries (f' + 1)
      (((natDigits k.length ++ 58 :: k) ++ bencodeSorted v ++ bencodeEntries es)
        ++ 101 :: rest) prev = _
    rw [List.append_assoc, List.append_assoc]
    obtain ⟨d, t, ht⟩ := List.exists_cons_of_ne_nil (natDigits_ne_nil k.length)
    have hd : isDigitByte d = true := by
      apply natDigitsAux_digits k.length k.length
      rw [show natDigitsAux k.length k.length = natDigits k.length from rfl, ht]
      exact List.mem_cons_self d t
    have hdrange : 48 ≤ d ∧ d ≤ 57 := by
      simp only [isDigitByte, Bool.and_eq_true, decide_eq_true_eq] at hd
      exact hd
    have hhead : ((natDigits k.length ++ 58 :: k)
        ++ (bencodeSorted v ++ (bencodeEntries es ++ 101 :: rest))).head? = some d := by
      rw [ht]
      rfl
    simp only [decodeEntries]
    rw [if_neg (by
      rw [hhead]
      simp only [Option.some.injEq]
      omega)]
    obtain ⟨f2, rfl⟩ : ∃ f2, f' = f2 + 1 := ⟨f' - 1, by omega⟩
    rw [decodeNext_strEnc f2 k (bencodeSorted v ++ (bencodeEntries es ++ 101 :: rest))]
    simp only [hch2.1]
    rw [decodeNext_enc v hacc2.1 (bencodeEntries es ++ 101 :: rest) (f2 + 1) (by omega)]
    simp only [decodeEntries_enc es (some k) hch2.2 hacc2.2 rest (f2 + 1) (by omega)]
    all_goals rfl

end

/-! ## Soundness: every decoded value is accepted -/

theorem decodeAccepted : ∀ f : Nat,
    (∀ s v t, decodeNext f s = .ok (v, t) → accepted v = true)
    ∧ (∀ s vs t, decodeElems f s = .ok (vs, t) → acceptedList vs = true)
    ∧ (∀ s prev es t, decodeEntries f s prev = .ok (es, t) →
        chainKeys prev es = true ∧ acceptedEntries es = true) := by
  intro f
  induction f with
  | zero =>
    refine ⟨?_, ?_, ?_⟩ <;> intro s
    · intro v t h
      simp [decodeNext] at h
    · intro vs t h
      simp [decodeElems] at h
    · intro prev es t h
      simp [decodeEntries] at h
  | succ f ih =>
    obtain ⟨ihN, ihL, ihE⟩ := ih
    refine ⟨?_, ?_, ?_⟩
    · intro s v t h
      match s with
      | [] => simp [decodeNext] at h
      | c :: s =>
        simp only [decodeNext] at h
        by_cases h100 : c = 100
        · rw [if_pos h100] at h
          cases hq : decodeEntries f s none with
          | error e =>
            rw [hq] at h
            simp at h
          | ok p =>
            obtain ⟨es, t2⟩ := p
            rw [hq] at h
            simp only [Except.ok.injEq, Prod.mk.injEq] at h
            obtain ⟨hv, -⟩ := h
            subst hv
            have hae := ihE s none es t2 hq
            simp only [accepted, Bool.and_eq_true]
            exact ⟨hae.1, hae.2⟩
        · rw [if_neg h100] at h
          by_cases h108 : c = 108
          · rw [if_pos h108] at h
            cases hq : decodeElems f s with
            | error e =>
              rw [hq] at h
              simp at h
            | ok p =>
              obtain ⟨vs, t2⟩ := p
              rw [hq] at h
              simp only [Except.ok.injEq, Prod.mk.injEq] at h
              obtain ⟨hv, -⟩ := h
              subst hv
              exact ihL s vs t2 hq
          · rw [if_neg h108] at h
            by_cases h105 : c = 105
            · rw [if_pos h105] at h
              cases hq : readInt 101 s with
              | error e =>
                rw [hq] at h
                simp at h
              | ok p =>
                obtain ⟨n, t2⟩ := p
                rw [hq] at h
                simp only [Except.ok.injEq, Prod.mk.injEq] at h
                obtain ⟨hv, -⟩ := h
                subst hv
                rfl
            · rw [if_neg h105] at h
              by_cases hdig : isDigitByte c = true
              · rw [if_pos hdig] at h
                cases hq : readInt 58 (c :: s) with
                | error e =>
                  rw [hq] at h
                  simp at h
                | ok p =>
                  obtain ⟨n, t2⟩ := p
                  rw [hq] at h
                  simp only [] at h
                  cases hq2 : readBytes n.toNat t2 with
                  | error e =>
                    rw [hq2] at h
                    simp at h
                  | ok p2 =>
                    obtain ⟨b, u⟩ := p2
                    rw [hq2] at h
                    simp only [Except.ok.injEq, Prod.mk.injEq] at h
                    obtain ⟨hv, -⟩ := h
                    subst hv
                    rfl
              · rw [if_neg hdig] at h
                simp at h
    · intro s vs t h
      simp only [decodeElems] at h
      by_cases hhead : s.head? = some 101
      · rw [if_pos hhead] at h
        simp only [Except.ok.injEq, Prod.mk.injEq] at h
        obtain ⟨hv, -⟩ := h
        subst hv
        rfl
      · rw [if_neg hhead] at h
        cases hq : decodeNext f s with
        | error e =>
          rw [hq] at h
          simp at h
        | ok p =>
          obtain ⟨v, s1⟩ := p
          rw [hq] at h
          simp only [] at h
          cases hq2 : decodeElems f s1 with
          | error e =>
            rw [hq2] at h
            simp at h
          | ok p2 =>
            obtain ⟨vs2, t2⟩ := p2
            rw [hq2] at h
            simp only [Except.ok.injEq, Prod.mk.injEq] at h
            obtain ⟨hv, -⟩ := h
            subst hv
            simp only [acceptedList, Bool.and_eq_true]
            exact ⟨ihN s v s1 hq, ihL s1 vs2 t2 hq2⟩
    · intro s prev es t h
      simp only [decodeEntries] at h
      by_cases hhead : s.head? = some 101
      · rw [if_pos hhead] at h
        simp only [Except.ok.injEq, Prod.mk.injEq] at h
        obtain ⟨hv, -⟩ := h
        subst hv
        exact ⟨rfl, rfl⟩
      · rw [if_neg hhead] at h
        cases hq : decodeNext f s with
        | error e =>
          rw [hq] at h
          simp at h
        | ok p =>
          obtain ⟨kv, s1⟩ := p
          rw [hq] at h
          match kv with
          | .bint _ => simp at h
          | .blist _ => simp at h
          | .bdict _ => simp at h
          | .bstr k =>
            simp only [] at h
            by_cases hord : prevOk prev k = false
            · rw [if_pos hord] at h
              simp at h
            · rw [if_neg hord] at h
              cases hq2 : decodeNext f s1 with
              | error e =>
                rw [hq2] at h
                simp at h
              | ok p2 =>
                obtain ⟨v, s2⟩ := p2
                rw [hq2] at h
                simp only [] at h
                cases hq3 : decodeEntries f s2 (some k) with
                | error e =>
                  rw [hq3] at h
                  simp at h
                | ok p3 =>
                  obtain ⟨es2, t2⟩ := p3
                  rw [hq3] at h
                  simp only [Except.ok.injEq, Prod.mk.injEq] at h
                  obtain ⟨hv, -⟩ := h
                  subst hv
                  have hrec := ihE s2 (some k) es2 t2 hq3
                  constructor
                  · simp only [chainKeys, Bool.and_eq_true]
                    refine ⟨?_, hrec.1⟩
                    cases hok : prevOk prev k with
                    | false => exact absurd hok hord
                    | true => rfl
                  · simp only [acceptedEntries, Bool.and_eq_true]
                    exact ⟨ihN s1 v s2 hq2, hrec.2⟩

/-! ## Claim C1 -/

/-- C1: bencode round-trip.  For every value `v` the bencode decoder can
accept (byte strings, integers, lists, and dicts with strictly ascending
byte-string keys), `unbencode (bencode v) = v`; and for every byte string
that is the output of `bencode` on such a value, re-encoding its decoding
reproduces it byte for byte. -/
theorem bencode_roundtrip_c1 (v : BValue) (hv : accepted v = true) :
    unbencode (bencode v) = .ok v ∧
    Except.map bencode (unbencode (bencode v)) = .ok (bencode v) := by
  have henc : bencode v = bencodeSorted v := bencode_of_accepted v hv
  have hdec : decodeNext ((bencode v).length + 1) (bencode v ++ []) = .ok (v, []) := by
    rw [henc]
    exact decodeNext_enc v hv [] _ (by omega)
  rw [List.append_nil] at hdec
  have hu : unbencode (bencode v) = .ok v := by
    unfold unbencode unbencodeSplit
    rw [hdec]
  refine ⟨hu, ?_⟩
  rw [hu]
  rfl

/-- Witness for C1 at the spec's own example
`{b"cow": b"moo", b"spam": b"eggs"}`. -/
theorem bencode_roundtrip_c1_witness :
    accepted (.bdict [([99, 111, 119], .bstr [109, 111, 111]),
      ([115, 112, 97, 109], .bstr [101, 103, 103, 115])]) = true ∧
    unbencode (bencode (.bdict [([99, 111, 119], .bstr [109, 111, 111]),
      ([115, 112, 97, 109], .bstr [101, 103, 103, 115])])) =
      .ok (.bdict [([99, 111, 119], .bstr [109, 111, 111]),
      ([115, 112, 97, 109], .bstr [101, 103, 103, 115])]) :=
  ⟨rfl, (bencode_roundtrip_c1 (.bdict [([99, 111, 119], .bstr [109, 111, 111]),
    ([115, 112, 97, 109], .bstr [101, 103, 103, 115])]) rfl).1⟩

/-! ## Claim C6 -/

/-- C6: decoder rejections.  (a) Every successfully decoded value is
`accepted`, i.e. every dictionary the decoder ever returns has strictly
ascending (hence duplicate-free) keys — an input whose top-level or nested
dictionary is out of order or has duplicates is rejected by the
`key <= prev_key` check.  (b) An integer encoding whose digit string has a
leading zero (and more than one digit) is rejected.  (c) An integer
encoding `-0...` is rejected.  (d) `decode(b"i-10e") = -10` and
(e) `decode(b"i-0e")` raises a bencode error. -/
theorem decoder_rejections_c6 :
    (∀ blob v, unbencode blob = .ok v → accepted v = true) ∧
    (∀ (ds rest : List Nat) (f : Nat), (∀ d ∈ ds, isDigitByte d = true) →
      ds.head? = some 48 → 1 < ds.length →
      decodeNext (f + 1) (105 :: (ds ++ 101 :: rest)) = .error .invalidInt) ∧
    (∀ (ds rest : List Nat) (f : Nat), (∀ d ∈ ds, isDigitByte d = true) →
      ds.head? = some 48 →
      decodeNext (f + 1) (105 :: (45 :: ds ++ 101 :: rest)) = .error .invalidInt) ∧
    unbencode [105, 45, 49, 48, 101] = .ok (.bint (-10)) ∧
    unbencode [105, 45, 48, 101] = .error .invalidInt := by
  refine ⟨?_, ?_, ?_, rfl, rfl⟩
  · intro blob v h
    unfold unbencode at h
    cases hq : unbencodeSplit blob with
    | error e =>
      rw [hq] at h
      simp at h
    | ok p =>
      obtain ⟨v2, t⟩ := p
      rw [hq] at h
      cases t with
      | nil =>
        simp only [Except.ok.injEq] at h
        subst h
        exact (decodeAccepted (blob.length + 1)).1 blob v2 [] hq
      | cons a t2 =>
        simp at h
  · intro ds rest f hds h48 hlen
    obtain ⟨d, dr, rfl⟩ : ∃ d dr, ds = d :: dr := by
      cases ds with
      | nil => simp at h48
      | cons d dr => exact ⟨d, dr, rfl⟩
    simp only [List.head?_cons, Option.some.injEq] at h48
    subst h48
    obtain ⟨x, xs, rfl⟩ : ∃ x xs, dr = x :: xs := by
      cases dr with
      | nil => simp at hlen
      | cons x xs => exact ⟨x, xs, rfl⟩
    have hread : readInt 101 ((48 :: x :: xs) ++ 101 :: rest) = .error .invalidInt := by
      unfold readInt
      rw [readRaw_digits 101 (by omega) (48 :: x :: xs) hds true rest]
      simp only []
      rw [if_pos (by simp [List.isEmpty])]
    simp only [decodeNext]
    rw [hread]
    all_goals rfl
  · intro ds rest f hds h48
    obtain ⟨d, dr, rfl⟩ : ∃ d dr, ds = d :: dr := by
      cases ds with
      | nil => simp at h48
      | cons d dr => exact ⟨d, dr, rfl⟩
    simp only [List.head?_cons, Option.some.injEq] at h48
    subst h48
    have hread : readInt 101 (45 :: 48 :: (dr ++ 101 :: rest)) = .error .invalidInt := by
      have hstep : readRaw 101 (45 :: 48 :: (dr ++ 101 :: rest)) true
          = match readRaw 101 (48 :: (dr ++ 101 :: rest)) false with
            | .error e => .error e
            | .ok (ds2, u) => .ok (45 :: ds2, u) := by
        simp only [readRaw]
        rw [if_neg (by omega), if_pos (by simp [isDigitByte])]
      have hraw : readRaw 101 (48 :: (dr ++ 101 :: rest)) false = .ok (48 :: dr, rest) := by
        have hr2 := readRaw_digits 101 (by omega) (48 :: dr) hds false rest
        simpa using hr2
      unfold readInt
      rw [hstep, hraw]
      simp only []
      rw [if_neg (by simp), if_pos (by simp)]
    simp only [decodeNext, List.cons_append]
    rw [hread]
    all_goals rfl

/-- Witness for C6: part (a) applied at `b"i-10e"`, part (b) applied at the
leading-zero integer encoding `b"i05e"`, and part (c) at `b"i-05e"`. -/
theorem decoder_rejections_c6_witness :
    accepted (.bint (-10)) = true ∧
    decodeNext 1 [105, 48, 53, 101] = .error .invalidInt ∧
    decodeNext 1 [105, 45, 48, 53, 101] = .error .invalidInt :=
  ⟨decoder_rejections_c6.1 [105, 45, 49, 48, 101] (.bint (-10)) rfl,
   decoder_rejections_c6.2.1 [48, 53] [] 0 (by decide) rfl (by decide),
   decoder_rejections_c6.2.2.1 [48, 53] [] 0 (by decide) rfl⟩

/-! ## InfoPiecer: `util.InfoPiecer`

`INFO_CHUNK_SIZE = 16 << 10 = 16384` from `consts.py`.  The running SHA-1
(`hashlib.sha1`) is modelled by the list of bytes fed to it (`fed`), which
determines the digest. -/

structure InfoPiecer where
  total_size : Nat
  data : List Nat
  sizes : List Nat
  index : Nat
  fed : List Nat

/-- Embedding of `InfoPiecer.__attrs_post_init__`: `qty, residue =
divmod(total_size, 16384)`; the schedule is `qty` full chunks plus the
residue when nonzero; data empty, cursor 0, digest fresh. -/
def InfoPiecer.init (total_size : Nat) : InfoPiecer :=
  ⟨total_size, [],
    List.replicate (total_size / 16384) 16384
      ++ (if total_size % 16384 ≠ 0 then [total_size % 16384] else []),
    0, []⟩

/-- Embedding of `InfoPiecer.piece_qty`. -/
def InfoPiecer.pieceQty (p : InfoPiecer) : Nat := p.sizes.length

/-- Errors of `InfoPiecer.add_piece` (`ValueError("Too many pieces")` and
the wrong-length `ValueError`). -/
inductive PiecerErr where
  | tooMany
  | wrongLength

/-- Embedding of `InfoPiecer.add_piece`: reject when the cursor is past the
schedule or the blob length differs from the scheduled size; otherwise
append the bytes, feed the digest, and advance the cursor. -/
def InfoPiecer.addPiece (p : InfoPiecer) (blob : List Nat) : Except PiecerErr InfoPiecer :=
  if h : p.index < p.sizes.length then
    if blob.length ≠ p.sizes.get ⟨p.index, h⟩ then .error .wrongLength
    else .ok ⟨p.total_size, p.data ++ blob, p.sizes, p.index + 1, p.fed ++ blob⟩
  else .error .tooMany

/-! ## Claim C7 -/

/-- C7: InfoPiecer contract.  The schedule of `init n` is full 16384-byte
pieces followed by one residue piece when 16384 does not divide `n`, and it
has exactly `ceil(n / 16384)` pieces; `addPiece` errors exactly when all
scheduled pieces are already added (`tooMany`) or the blob length differs
from the scheduled size at the cursor (`wrongLength`); on success the blob
is appended to the data, fed to the digest, and the cursor advances by
one. -/
theorem infoPiecer_c7 :
    (∀ n : Nat,
      (InfoPiecer.init n).sizes
        = List.replicate (n / 16384) 16384
          ++ (if n % 16384 ≠ 0 then [n % 16384] else [])
      ∧ InfoPiecer.pieceQty (InfoPiecer.init n) = (n + 16383) / 16384) ∧
    (∀ (p : InfoPiecer) (blob : List Nat),
      if h : p.index < p.sizes.length then
        (if blob.length = p.sizes.get ⟨p.index, h⟩ then
          InfoPiecer.addPiece p blob
            = .ok ⟨p.total_size, p.data ++ blob, p.sizes, p.index + 1, p.fed ++ blob⟩
        else InfoPiecer.addPiece p blob = .error .wrongLength)
      else InfoPiecer.addPiece p blob = .error .tooMany) := by
  constructor
  · intro n
    refine ⟨rfl, ?_⟩
    simp only [InfoPiecer.pieceQty, InfoPiecer.init, List.length_append,
      List.length_replicate]
    by_cases hres : n % 16384 ≠ 0
    · rw [if_pos hres]
      simp only [List.length_singleton]
      omega
    · rw [if_neg hres]
      simp only [List.length_nil]
      omega
  · intro p blob
    by_cases h : p.index < p.sizes.length
    · rw [dif_pos h]
      by_cases hlen : blob.length = p.sizes.get ⟨p.index, h⟩
      · rw [if_pos hlen]
        unfold InfoPiecer.addPiece
        rw [dif_pos h, if_neg (by omega)]
      · rw [if_neg hlen]
        unfold InfoPiecer.addPiece
        rw [dif_pos h, if_pos hlen]
    · rw [dif_neg h]
      unfold InfoPiecer.addPiece
      rw [dif_neg h]

/-- Witness for C7: a 20000-byte info dict is scheduled as one full 16384
chunk plus a 3616-byte residue, i.e. `ceil(20000 / 16384) = 2` pieces. -/
theorem infoPiecer_c7_witness :
    (InfoPiecer.init 20000).sizes
        = List.replicate (20000 / 16384) 16384
          ++ (if 20000 % 16384 ≠ 0 then [20000 % 16384] else [])
      ∧ InfoPiecer.pieceQty (InfoPiecer.init 20000) = (20000 + 16383) / 16384 :=
  infoPiecer_c7.1 20000

/-! ## BEP 9 messages: `messages.BEP9Message`

`from_extended_payload` splits the payload with `partial_unbencode`
(`unbencodeSplit` here), requires a dict with integer `msg_type` and
`piece` fields and an optional integer `total_size`, then enforces the
trailing-byte discipline for the known message types 0/1/2. -/

structure BEP9Message where
  msg_type : Int
  piece : Int
  total_size : Option Int
  payload : List Nat

inductive BEP9Err where
  | notBencode
  | notDict
  | badMsgType
  | badPiece
  | badTotalSize
  | nonDataTrailing
  | dataNoTrailing

/-- Python `dict.get` on a decoded bencode dict (decoded dicts have
distinct keys, so first-match lookup agrees with Python). -/
def dictGet (es : List (List Nat × BValue)) (key : List Nat) : Option BValue :=
  match es with
  | [] => none
  | (k, v) :: rest => if k = key then some v else dictGet rest key

/-- Bytes of `b"msg_type"`. -/
def msgTypeKey : List Nat := [109, 115, 103, 95, 116, 121, 112, 101]

/-- Bytes of `b"piece"`. -/
def pieceKey : List Nat := [112, 105, 101, 99, 101]

/-- Bytes of `b"total_size"`. -/
def totalSizeKey : List Nat := [116, 111, 116, 97, 108, 95, 115, 105, 122, 101]

/-- Tail of `from_extended_payload` from `BEP9MsgType(msg_type)` on: a known
type other than data (1) must have no trailing bytes, data must have some,
and an unknown type is accepted as is (`except ValueError: pass`). -/
def bep9Finish (mt pc : Int) (ts : Option Int) (trailing : List Nat) :
    Except BEP9Err BEP9Message :=
  if mt = 0 ∨ mt = 1 ∨ mt = 2 then
    if mt ≠ 1 then
      if trailing ≠ [] then .error .nonDataTrailing
      else .ok ⟨mt, pc, ts, trailing⟩
    else if trailing = [] then .error .dataNoTrailing
    else .ok ⟨mt, pc, ts, trailing⟩
  else .ok ⟨mt, pc, ts, trailing⟩

/-- Embedding of `BEP9Message.from_extended_payload`. -/
def BEP9Message.fromExtendedPayload (payload : List Nat) : Except BEP9Err BEP9Message :=
  match unbencodeSplit payload with
  | .error _ => .error .notBencode
  | .ok (.bdict es, trailing) =>
    match dictGet es msgTypeKey with
    | some (.bint mt) =>
      match dictGet es pieceKey with
      | some (.bint pc) =>
        match dictGet es totalSizeKey with
        | some (.bint ts) => bep9Finish mt pc (some ts) trailing
        | none => bep9Finish mt pc none trailing
        | some _ => .error .badTotalSize
      | _ => .error .badPiece
    | _ => .error .badMsgType
  | .ok (_, _) => .error .notDict

/-! ## Claim C10 -/

/-- C10: BEP9Message trailing-byte strictness.  For a payload whose leading
bencoded dict carries integer `msg_type` and `piece` fields (and an
optional integer `total_size`): with `msg_type = 1` (data) parsing fails
without trailing bytes and succeeds with them; with `msg_type` 0 (request)
or 2 (reject) parsing fails when trailing bytes are present and succeeds
without; with any unknown `msg_type` parsing succeeds and keeps the
trailing bytes as the message payload. -/
theorem bep9_strict_trailing_c10 (payload : List Nat) (es : List (List Nat × BValue))
    (tr : List Nat) (mt pc : Int) (tsOpt : Option Int)
    (hdec : unbencodeSplit payload = .ok (.bdict es, tr))
    (hmt : dictGet es msgTypeKey = some (.bint mt))
    (hpc : dictGet es pieceKey = some (.bint pc))
    (hts : dictGet es totalSizeKey = Option.map BValue.bint tsOpt) :
    (mt = 1 →
      (tr = [] → BEP9Message.fromExtendedPayload payload = .error .dataNoTrailing) ∧
      (tr ≠ [] → BEP9Message.fromExtendedPayload payload = .ok ⟨mt, pc, tsOpt, tr⟩)) ∧
    ((mt = 0 ∨ mt = 2) →
      (tr ≠ [] → BEP9Message.fromExtendedPayload payload = .error .nonDataTrailing) ∧
      (tr = [] → BEP9Message.fromExtendedPayload payload = .ok ⟨mt, pc, tsOpt, tr⟩)) ∧
    (¬(mt = 0 ∨ mt = 1 ∨ mt = 2) →
      BEP9Message.fromExtendedPayload payload = .ok ⟨mt, pc, tsOpt, tr⟩) := by
  have hfun : BEP9Message.fromExtendedPayload payload = bep9Finish mt pc tsOpt tr := by
    unfold BEP9Message.fromExtendedPayload
    rw [hdec]
    simp only []
    rw [hmt]
    simp only []
    rw [hpc]
    simp only []
    cases tsOpt with
    | none =>
      rw [show dictGet es totalSizeKey = none from hts]
    | some ts =>
      rw [show dictGet es totalSizeKey = some (.bint ts) from hts]
  rw [hfun]
  refine ⟨?_, ?_, ?_⟩
  · intro h1
    subst h1
    unfold bep9Finish
    rw [if_pos (Or.inr (Or.inl rfl)), if_neg (by simp)]
    constructor
    · intro he
      rw [if_pos he]
    · intro hne
      rw [if_neg hne]
  · intro h02
    have hne1 : mt ≠ 1 := by
      rcases h02 with h | h <;> omega
    unfold bep9Finish
    rw [if_pos (by tauto), if_pos hne1]
    constructor
    · intro hne
      rw [if_pos hne]
    · intro he
      rw [if_neg (by simp [he])]
  · intro hunk
    unfold bep9Finish
    rw [if_neg hunk]

/-- Witness for C10 at the data-message payload
`b"d8:msg_typei1e5:piecei0ee" ++ b"a"`. -/
theorem bep9_strict_trailing_c10_witness :
    BEP9Message.fromExtendedPayload
      [100, 56, 58, 109, 115, 103, 95, 116, 121, 112, 101, 105, 49, 101,
       53, 58, 112, 105, 101, 99, 101, 105, 48, 101, 101, 97]
      = .ok ⟨1, 0, none, [97]⟩ :=
  ((bep9_strict_trailing_c10
      [100, 56, 58, 109, 115, 103, 95, 116, 121, 112, 101, 105, 49, 101,
       53, 58, 112, 105, 101, 99, 101, 105, 48, 101, 101, 97]
      [([109, 115, 103, 95, 116, 121, 112, 101], .bint 1),
       ([112, 105, 101, 99, 101], .bint 0)]
      [97] 1 0 none rfl rfl rfl rfl).1 rfl).2 (by simp)

/-! ## HTTP tracker: `trackers/http.py`

`HTTPTrackerSession.announce` decodes the 2xx body with the external
`flatbencode.decode` and hands the decoded value to `Response.parse`
(embedded as `responseParseData` over an already-decoded `BValue`), then
raises `TrackerError("Request to <tracker> failed: <reason>")` when the
parsed response carries a failure reason.  Peer host texts produced by the
external `ipaddress` library are modelled by injective constructors holding
the library's input. -/

/-- Text carried by a `failure reason` entry: `bytes.decode("utf-8",
"replace")` for a bytes value, `str(value)` as a salvage otherwise; both
are injective in the modelled argument. -/
inductive FailureText where
  | ofBytes (s : List Nat)
  | ofValue (v : BValue)

/-- Host rendering of a parsed peer: a UTF-8 host string from the
legacy dict format, or the external `ipaddress` rendering of a packed
IPv4/IPv6 address. -/
inductive HostRepr where
  | named (text : List Nat)
  | v4 (ipnum : Nat)
  | v6 (bytes16 : List Nat)

structure HTTPPeer where
  host : HostRepr
  port : Int
  id : Option (List Nat)

/-- Continuation byte test for strict UTF-8 validation. -/
def isCont (b : Nat) : Bool := 128 ≤ b && b ≤ 191

/-- Strict UTF-8 validity, as required by Python's
`bytes.decode("utf-8")` on the legacy-format `ip` field: no overlong
forms, no surrogates, nothing above U+10FFFF. -/
def utf8Valid : List Nat → Bool
  | [] => true
  | c :: rest =>
    if c ≤ 127 then utf8Valid rest
    else if 194 ≤ c && c ≤ 223 then
      match rest with
      | c2 :: r => isCont c2 && utf8Valid r
      | [] => false
    else if c = 224 then
      match rest with
      | c2 :: c3 :: r => (160 ≤ c2 && c2 ≤ 191) && isCont c3 && utf8Valid r
      | _ => false
    else if 225 ≤ c && c ≤ 236 then
      match rest with
      | c2 :: c3 :: r => isCont c2 && isCont c3 && utf8Valid r
      | _ => false
    else if c = 237 then
      match rest with
      | c2 :: c3 :: r => (128 ≤ c2 && c2 ≤ 159) && isCont c3 && utf8Valid r
      | _ => false
    else if 238 ≤ c && c ≤ 239 then
      match rest with
      | c2 :: c3 :: r => isCont c2 && isCont c3 && utf8Valid r
      | _ => false
    else if c = 240 then
      match rest with
      | c2 :: c3 :: c4 :: r =>
        (144 ≤ c2 && c2 ≤ 191) && isCont c3 && isCont c4 && utf8Valid r
      | _ => false
    else if 241 ≤ c && c ≤ 243 then
      match rest with
      | c2 :: c3 :: c4 :: r => isCont c2 && isCont c3 && isCont c4 && utf8Valid r
      | _ => false
    else if c = 244 then
      match rest with
      | c2 :: c3 :: c4 :: r =>
        (128 ≤ c2 && c2 ≤ 143) && isCont c3 && isCont c4 && utf8Valid r
      | _ => false
    else false

/-- Big-endian value of a byte string (`int.from_bytes(bs, "big")`, and the
`struct` unpacking of `!I`/`!H` fields). -/
def beNat (bs : List Nat) : Nat := bs.foldl (fun acc b => 256 * acc + b) 0

/-- Embedding of `trackers/base.py unpack_peers` (BEP 23): 6-byte records
`IPv4(4) + port(2)`; a trailing partial record is a `struct.error`, i.e. an
invalid peers list. -/
def unpackPeers : List Nat → Except Unit (List HTTPPeer)
  | [] => .ok []
  | a :: b :: c :: d :: p0 :: p1 :: rest =>
    match unpackPeers rest with
    | .error e => .error e
    | .ok others => .ok (⟨.v4 (beNat [a, b, c, d]), (beNat [p0, p1] : Nat), none⟩ :: others)
  | _ => .error ()

/-- Embedding of `trackers/base.py unpack_peers6` (BEP 7): 18-byte records
`IPv6(16) + port(2)`. -/
def unpackPeers6 : List Nat → Except Unit (List HTTPPeer)
  | [] => .ok []
  | b0 :: b1 :: b2 :: b3 :: b4 :: b5 :: b6 :: b7 :: b8 :: b9 :: b10 :: b11
      :: b12 :: b13 :: b14 :: b15 :: p0 :: p1 :: rest =>
    match unpackPeers6 rest with
    | .error e => .error e
    | .ok others =>
      .ok (⟨.v6 [b0, b1, b2, b3, b4, b5, b6, b7, b8, b9, b10, b11, b12, b13, b14, b15],
        (beNat [p0, p1] : Nat), none⟩ :: others)
  | _ => .error ()

structure HTTPResponse where
  failure_reason : Option FailureText
  warning_message : Option (List Nat)
  interval : Option Int
  min_interval : Option Int
  tracker_id : Option (List Nat)
  complete : Option Int
  incomplete : Option Int
  peers : List HTTPPeer

/-- Bytes of `b"failure reason"`. -/
def failureReasonKey : List Nat := [102, 97, 105, 108, 117, 114, 101, 32, 114, 101, 97, 115, 111, 110]

/-- Bytes of `b"warning message"`. -/
def warningMessageKey : List Nat := [119, 97, 114, 110, 105, 110, 103, 32, 109, 101, 115, 115, 97, 103, 101]

/-- Bytes of `b"interval"`. -/
def intervalKey : List Nat := [105, 110, 116, 101, 114, 118, 97, 108]

/-- Bytes of `b"min interval"`. -/
def minIntervalKey : List Nat := [109, 105, 110, 32, 105, 110, 116, 101, 114, 118, 97, 108]

/-- Bytes of `b"tracker id"`. -/
def trackerIdKey : List Nat := [116, 114, 97, 99, 107, 101, 114, 32, 105, 100]

/-- Bytes of `b"complete"`. -/
def completeKey : List Nat := [99, 111, 109, 112, 108, 101, 116, 101]

/-- Bytes of `b"incomplete"`. -/
def incompleteKey : List Nat := [105, 110, 99, 111, 109, 112, 108, 101, 116, 101]

/-- Bytes of `b"peers"`. -/
def peersKey : List Nat := [112, 101, 101, 114, 115]

/-- Bytes of `b"peers6"`. -/
def peers6Key : List Nat := [112, 101, 101, 114, 115, 54]

/-- Bytes of `b"ip"`. -/
def ipKey : List Nat := [105, 112]

/-- Bytes of `b"port"`. -/
def portKey : List Nat := [112, 111, 114, 116]

/-- Bytes of `b"peer id"`. -/
def peerIdKey : List Nat := [112, 101, 101, 114, 32, 105, 100]

/-- `get_typed_value(data, key, int)`: the value when present and an
integer, else `None`. -/
def getInt (es : List (List Nat × BValue)) (key : List Nat) : Option Int :=
  match dictGet es key with
  | some (.bint n) => some n
  | _ => none

/-- `get_typed_value(data, key, bytes)`. -/
def getBytes (es : List (List Nat × BValue)) (key : List Nat) : Option (List Nat) :=
  match dictGet es key with
  | some (.bstr s) => some s
  | _ => none

/-- The `failure reason` extraction of `Response.parse`: bytes decode with
replacement; any other present value is salvaged through `str`. -/
def failureReasonOf (es : List (List Nat × BValue)) : Option FailureText :=
  match dictGet es failureReasonKey with
  | none => none
  | some (.bstr s) => some (.ofBytes s)
  | some v => some (.ofValue v)

/-- The BEP 3 legacy `peers` list of dicts: each entry must be a dict with
a UTF-8-decodable bytes `ip` and an integer `port`; `peer id` is kept when
present and bytes. -/
def parsePeerDicts : List BValue → Except Unit (List HTTPPeer)
  | [] => .ok []
  | .bdict pes :: rest =>
    match dictGet pes ipKey with
    | some (.bstr ip) =>
      if utf8Valid ip then
        match dictGet pes portKey with
        | some (.bint pt) =>
          match parsePeerDicts rest with
          | .error e => .error e
          | .ok others =>
            .ok (⟨.named ip, pt,
              (match dictGet pes peerIdKey with
                | some (.bstr pid) => some pid
                | _ => none)⟩ :: others)
        | _ => .error ()
      else .error ()
    | _ => .error ()
  | _ :: _ => .error ()

/-- The `peers` field of `Response.parse`: absent means no peers, a list is
the legacy format, bytes the compact format, anything else invalid. -/
def parsePeersField (es : List (List Nat × BValue)) : Except Unit (List HTTPPeer) :=
  match dictGet es peersKey with
  | none => .ok []
  | some (.blist pl) => parsePeerDicts pl
  | some (.bstr bs) => unpackPeers bs
  | some _ => .error ()

/-- The `peers6` field of `Response.parse`: absent means no peers, bytes
the compact IPv6 format, anything else invalid. -/
def parsePeers6Field (es : List (List Nat × BValue)) : Except Unit (List HTTPPeer) :=
  match dictGet es peers6Key with
  | none => .ok []
  | some (.bstr bs) => unpackPeers6 bs
  | some _ => .error ()

/-- Embedding of `Response.parse` on the already-decoded body (the decode
itself is the external `flatbencode.decode`): a non-dict is invalid;
known fields are extracted with `get_typed_value` (wrong types becoming
`None`), unknown fields are never consulted; `peers`/`peers6` parse as
above and concatenate. -/
def responseParseData (data : BValue) : Except Unit HTTPResponse :=
  match data with
  | .bdict es =>
    match parsePeersField es with
    | .error e => .error e
    | .ok ps =>
      match parsePeers6Field es with
      | .error e => .error e
      | .ok ps6 =>
        .ok ⟨failureReasonOf es, getBytes es warningMessageKey, getInt es intervalKey,
          getInt es minIntervalKey, getBytes es trackerIdKey, getInt es completeKey,
          getInt es incompleteKey, ps ++ ps6⟩
  | _ => .error ()

/-- Message carried by the `TrackerError` raised in
`HTTPTrackerSession.announce`. -/
inductive TEMsg where
  | badResponse
  | requestFailed (text : FailureText)

/-- Exception raised by an HTTP announce: the code's `TrackerError`, or a
`TrackerFailure` (declared in `errors.py` for tracker failure messages —
never produced by this announce path). -/
inductive AnnounceExc where
  | trackerError (msg : TEMsg)
  | trackerFailure (text : FailureText)

/-- Embedding of the post-parse dispatch of `HTTPTrackerSession.announce`:
a parse failure raises `TrackerError("Bad response ...")`; a parsed
response with a failure reason raises
`TrackerError("Request to ... failed: <reason>")`; otherwise the peers are
returned (a warning message only logs). -/
def httpAnnounceOutcome (parsed : Except Unit HTTPResponse) :
    Except AnnounceExc (List HTTPPeer) :=
  match parsed with
  | .error _ => .error (.trackerError .badResponse)
  | .ok r =>
    match r.failure_reason with
    | some ft => .error (.trackerError (.requestFailed ft))
    | none => .ok r.peers

/-! ## Claim C3 -/

/-- C3 evaluated at its failing input.  For the announce body decoding to
`{b"failure reason": b"nope"}`, the code raises `TrackerError` with the
failure text wrapped into its message, and does not raise `TrackerFailure`
as the specification claims (`trackers/http.py` line 72 raises
`TrackerError`; `TrackerFailure` exists in `errors.py` for exactly this
situation but is unused here, and the single-argument `TrackerError(...)`
call does not even match the three-field `TrackerError` class of
`errors.py`). -/
theorem http_failure_c3_eval :
    httpAnnounceOutcome (responseParseData
        (.bdict [(failureReasonKey, .bstr [110, 111, 112, 101])]))
      = .error (.trackerError (.requestFailed (.ofBytes [110, 111, 112, 101]))) ∧
    ∀ ft, httpAnnounceOutcome (responseParseData
        (.bdict [(failureReasonKey, .bstr [110, 111, 112, 101])]))
      ≠ .error (.trackerFailure ft) := by
  refine ⟨rfl, ?_⟩
  intro ft h
  rw [show httpAnnounceOutcome (responseParseData
      (.bdict [(failureReasonKey, .bstr [110, 111, 112, 101])]))
    = .error (.trackerError (.requestFailed (.ofBytes [110, 111, 112, 101]))) from rfl] at h
  simp at h

/-! ## Claim C8 -/

/-- C8 counterexample: parsing the empty announce dictionary `de` (no
`interval` key) produces a response whose `interval` is `None`, not the
claimed default 1800 — `Response.parse` has no 1800 default anywhere. -/
theorem http_interval_c8_cex :
    Except.map (fun r => r.interval) (responseParseData (.bdict [])) = .ok none ∧
    (none : Option Int) ≠ some 1800 := by
  refine ⟨rfl, by simp⟩

/-- C8 amended: when the announce response lacks an `interval` key (or it
is not an integer), the parsed response's `interval` is `None` (no 1800
default is applied); and unknown fields are ignored rather than causing a
parse failure — any dictionary without `peers`/`peers6` keys parses
successfully regardless of what other keys it carries. -/
theorem http_interval_c8_amended :
    (∀ es r, getInt es intervalKey = none →
      responseParseData (.bdict es) = .ok r → r.interval = none) ∧
    (∀ es, dictGet es peersKey = none → dictGet es peers6Key = none →
      ∃ r, responseParseData (.bdict es) = .ok r) := by
  constructor
  · intro es r hint hok
    unfold responseParseData at hok
    simp only [] at hok
    cases hp : parsePeersField es with
    | error e =>
      rw [hp] at hok
      simp at hok
    | ok ps =>
      rw [hp] at hok
      simp only [] at hok
      cases hp6 : parsePeers6Field es with
      | error e =>
        rw [hp6] at hok
        simp at hok
      | ok ps6 =>
        rw [hp6] at hok
        simp only [Except.ok.injEq] at hok
        subst hok
        simp [hint]
  · intro es hp hp6
    have h1 : parsePeersField es = .ok [] := by
      unfold parsePeersField
      rw [hp]
    have h2 : parsePeers6Field es = .ok [] := by
      unfold parsePeers6Field
      rw [hp6]
    refine ⟨⟨failureReasonOf es, getBytes es warningMessageKey, getInt es intervalKey,
      getInt es minIntervalKey, getBytes es trackerIdKey, getInt es completeKey,
      getInt es incompleteKey, [] ++ []⟩, ?_⟩
    unfold responseParseData
    simp only []
    rw [h1]
    simp only []
    rw [h2]

/-- Witness for C8 amended at the dictionary `{b"x": 5}`: a single unknown
key, no `interval` — the parse succeeds and the interval is `None`. -/
theorem http_interval_c8_amended_witness :
    ∃ r, responseParseData (.bdict [([120], .bint 5)]) = .ok r ∧ r.interval = none := by
  obtain ⟨r, hr⟩ := http_interval_c8_amended.2 [([120], .bint 5)] rfl rfl
  exact ⟨r, hr, http_interval_c8_amended.1 [([120], .bint 5)] r rfl hr⟩

/-! ## UDP tracker: `trackers/udp.py`

`send_receive` loops: send the datagram, wait `15 << n` seconds, and on a
timeout resend with `n` advanced (capped at 8); a received packet is fed to
the response parser — a `TrackerFailure` propagates, any other parse error
is logged ("will resend") and the loop continues (resending the datagram
and starting a fresh wait).  The loop is embedded as a trace machine over a
list of socket events; the outer `expiration` deadline (wall-clock time) is
not modelled. -/

/-- Signed big-endian 32-bit field, `struct` format `!i` (the caller checks
that 4 bytes exist). -/
def readI32 (resp : List Nat) (off : Nat) : Int :=
  if beNat ((resp.drop off).take 4) < 2 ^ 31 then (beNat ((resp.drop off).take 4) : Int)
  else (beNat ((resp.drop off).take 4) : Int) - 2 ^ 32

/-- Signed big-endian 64-bit field, `struct` format `!q`. -/
def readI64 (resp : List Nat) (off : Nat) : Int :=
  if beNat ((resp.drop off).take 8) < 2 ^ 63 then (beNat ((resp.drop off).take 8) : Int)
  else (beNat ((resp.drop off).take 8) : Int) - 2 ^ 64

/-- Errors of the UDP response parsers: a `TrackerFailure` carrying the
packet's trailing bytes (rendered to text with `decode("utf-8",
"replace")`, which is total), or any `ValueError`/`struct.error` that
`send_receive` silently discards. -/
inductive UdpErr where
  | failure (msg : List Nat)
  | invalid

/-- Embedding of `raise_error_response`: `struct.unpack_from("!ii", resp)`
needs 8 bytes (`struct.error` otherwise); if the action field is 3 the
packet is an error response and `TrackerFailure(resp[8:])` is raised —
before any transaction-ID comparison. -/
def raiseErrorResponse (resp : List Nat) : Except UdpErr Unit :=
  if resp.length < 8 then .error .invalid
  else if readI32 resp 0 = 3 then .error (.failure (resp.drop 8))
  else .ok ()

/-- Embedding of `parse_connection_response`: raise an error response
first; then `struct.unpack_from("!iiq")` needs 16 bytes; the transaction ID
must match and the action must be 0; the connection ID is returned. -/
def parseConnectionResponse (transaction_id : Int) (resp : List Nat) : Except UdpErr Int :=
  match raiseErrorResponse resp with
  | .error e => .error e
  | .ok _ =>
    if resp.length < 16 then .error .invalid
    else if readI32 resp 4 ≠ transaction_id then .error .invalid
    else if readI32 resp 0 ≠ 0 then .error .invalid
    else .ok (readI64 resp 8)

/-- One socket event seen by `send_receive`: a receive timeout, or an
arriving packet. -/
inductive UdpEvent where
  | timeout
  | packet (p : List Nat)

/-- One observable action of `send_receive`: sending a datagram, starting a
wait of the given number of seconds (`fail_after(15 << n)`), or silently
discarding an invalid packet. -/
inductive UdpAction where
  | send (msg : List Nat)
  | wait (secs : Nat)
  | discard

/-- Result of a `send_receive` run over a finite event list. -/
inductive UdpOutcome (T : Type) where
  | ok (t : T)
  | failure (msg : List Nat)
  | pending

/-- Embedding of `UDPTrackerSession.send_receive` as a trace machine:
each loop iteration sends `msg` and waits `15 * 2^n` seconds; a timeout
advances `n` when `n < 8` and loops; a packet that parses returns, a
`TrackerFailure` propagates, and any other parse error is discarded —
the loop then resends and waits afresh with `n` unchanged.  `15 << n` in
the source is `15 * 2 ^ n`. -/
def sendReceiveRun {T : Type} (parser : List Nat → Except UdpErr T) (msg : List Nat) :
    Nat → List UdpEvent → List UdpAction × UdpOutcome T
  | n, [] => ([.send msg, .wait (15 * 2 ^ n)], .pending)
  | n, .timeout :: rest =>
    (.send msg :: .wait (15 * 2 ^ n)
        :: (sendReceiveRun parser msg (if n < 8 then n + 1 else n) rest).1,
      (sendReceiveRun parser msg (if n < 8 then n + 1 else n) rest).2)
  | n, .packet p :: rest =>
    match parser p with
    | .ok t => ([.send msg, .wait (15 * 2 ^ n)], .ok t)
    | .error (.failure m) => ([.send msg, .wait (15 * 2 ^ n)], .failure m)
    | .error .invalid =>
      (.send msg :: .wait (15 * 2 ^ n) :: .discard :: (sendReceiveRun parser msg n rest).1,
        (sendReceiveRun parser msg n rest).2)

/-- `send_receive` starts with `n = 0`. -/
def sendReceive {T : Type} (parser : List Nat → Except UdpErr T) (msg : List Nat)
    (events : List UdpEvent) : List UdpAction × UdpOutcome T :=
  sendReceiveRun parser msg 0 events

/-- Number of receive timeouts in an event list. -/
def countTimeouts : List UdpEvent → Nat
  | [] => 0
  | .timeout :: rest => countTimeouts rest + 1
  | .packet _ :: rest => countTimeouts rest

/-- The wait durations of a trace, in order. -/
def waitsOf (tr : List UdpAction) : List Nat :=
  tr.filterMap (fun a => match a with | .wait d => some d | _ => none)

/-- The sent datagrams of a trace, in order. -/
def sendsOf (tr : List UdpAction) : List (List Nat) :=
  tr.filterMap (fun a => match a with | .send m => some m | _ => none)


/-! ## Trace lemmas for `send_receive` -/

theorem waitsOf_cons_send (msg : List Nat) (tr : List UdpAction) :
    waitsOf (.send msg :: tr) = waitsOf tr := rfl

theorem waitsOf_cons_wait (d : Nat) (tr : List UdpAction) :
    waitsOf (.wait d :: tr) = d :: waitsOf tr := rfl

theorem waitsOf_cons_discard (tr : List UdpAction) :
    waitsOf (.discard :: tr) = waitsOf tr := rfl

theorem waitsOf_nil : waitsOf [] = [] := rfl

theorem sendsOf_cons_send (msg : List Nat) (tr : List UdpAction) :
    sendsOf (.send msg :: tr) = msg :: sendsOf tr := rfl

theorem sendsOf_cons_wait (d : Nat) (tr : List UdpAction) :
    sendsOf (.wait d :: tr) = sendsOf tr := rfl

theorem sendsOf_cons_discard (tr : List UdpAction) :
    sendsOf (.discard :: tr) = sendsOf tr := rfl

theorem sendsOf_nil : sendsOf [] = [] := rfl

theorem sendReceiveRun_waits {T : Type} (parser : List Nat → Except UdpErr T)
    (msg : List Nat) :
    ∀ (events : List UdpEvent) (n : Nat), n ≤ 8 →
    ∀ j d, (waitsOf (sendReceiveRun parser msg n events).1).get? j = some d →
      d = 15 * 2 ^ (min (n + countTimeouts (events.take j)) 8) := by
  intro events
  induction events with
  | nil =>
    intro n hn j d hd
    simp only [sendReceiveRun, waitsOf_cons_send, waitsOf_cons_wait, waitsOf_nil] at hd
    cases j with
    | zero =>
      simp only [List.get?_cons_zero, Option.some.injEq] at hd
      simp only [List.take_nil, countTimeouts, Nat.add_zero]
      rw [min_eq_left hn]
      exact hd.symm
    | succ j =>
      simp at hd
  | cons e rest ih =>
    intro n hn j d hd
    have hnext : (if n < 8 then n + 1 else n) = min (n + 1) 8 := by
      split <;> omega
    cases e with
    | timeout =>
      simp only [sendReceiveRun, waitsOf_cons_send, waitsOf_cons_wait] at hd
      cases j with
      | zero =>
        simp only [List.get?_cons_zero, Option.some.injEq] at hd
        simp only [List.take_zero, countTimeouts, Nat.add_zero]
        rw [min_eq_left hn]
        exact hd.symm
      | succ j =>
        simp only [List.get?_cons_succ] at hd
        have hih := ih (if n < 8 then n + 1 else n) (by omega) j d hd
        rw [hih]
        congr 1
        rw [hnext]
        simp only [List.take_succ_cons, countTimeouts]
        congr 1
        omega
    | packet p =>
      simp only [sendReceiveRun] at hd
      cases hq : parser p with
      | ok t =>
        rw [hq] at hd
        simp only [waitsOf_cons_send, waitsOf_cons_wait, waitsOf_nil] at hd
        cases j with
        | zero =>
          simp only [List.get?_cons_zero, Option.some.injEq] at hd
          simp only [List.take_zero, countTimeouts, Nat.add_zero]
          rw [min_eq_left hn]
          exact hd.symm
        | succ j =>
          simp at hd
      | error e2 =>
        cases e2 with
        | failure m =>
          rw [hq] at hd
          simp only [waitsOf_cons_send, waitsOf_cons_wait, waitsOf_nil] at hd
          cases j with
          | zero =>
            simp only [List.get?_cons_zero, Option.some.injEq] at hd
            simp only [List.take_zero, countTimeouts, Nat.add_zero]
            rw [min_eq_left hn]
            exact hd.symm
          | succ j =>
            simp at hd
        | invalid =>
          rw [hq] at hd
          simp only [waitsOf_cons_send, waitsOf_cons_wait, waitsOf_cons_discard] at hd
          cases j with
          | zero =>
            simp only [List.get?_cons_zero, Option.some.injEq] at hd
            simp only [List.take_zero, countTimeouts, Nat.add_zero]
            rw [min_eq_left hn]
            exact hd.symm
          | succ j =>
            simp only [List.get?_cons_succ] at hd
            have hih := ih n hn j d hd
            rw [hih]
            simp only [List.take_succ_cons, countTimeouts]

theorem sendReceiveRun_sends {T : Type} (parser : List Nat → Except UdpErr T)
    (msg : List Nat) :
    ∀ (events : List UdpEvent) (n : Nat) (m : List Nat),
      m ∈ sendsOf (sendReceiveRun parser msg n events).1 → m = msg := by
  intro events
  induction events with
  | nil =>
    intro n m hm
    simp only [sendReceiveRun, sendsOf_cons_send, sendsOf_cons_wait, sendsOf_nil] at hm
    simpa using hm
  | cons e rest ih =>
    intro n m hm
    cases e with
    | timeout =>
      simp only [sendReceiveRun, sendsOf_cons_send, sendsOf_cons_wait] at hm
      rcases List.mem_cons.mp hm with h | h
      · exact h
      · exact ih _ m h
    | packet p =>
      simp only [sendReceiveRun] at hm
      cases hq : parser p with
      | ok t =>
        rw [hq] at hm
        simp only [sendsOf_cons_send, sendsOf_cons_wait, sendsOf_nil] at hm
        simpa using hm
      | error e2 =>
        cases e2 with
        | failure m2 =>
          rw [hq] at hm
          simp only [sendsOf_cons_send, sendsOf_cons_wait, sendsOf_nil] at hm
          simpa using hm
        | invalid =>
          rw [hq] at hm
          simp only [sendsOf_cons_send, sendsOf_cons_wait, sendsOf_cons_discard] at hm
          rcases List.mem_cons.mp hm with h | h
          · exact h
          · exact ih _ m h

theorem sendReceiveRun_sends_waits_length {T : Type}
    (parser : List Nat → Except UdpErr T) (msg : List Nat) :
    ∀ (events : List UdpEvent) (n : Nat),
      (sendsOf (sendReceiveRun parser msg n events).1).length
        = (waitsOf (sendReceiveRun parser msg n events).1).length := by
  intro events
  induction events with
  | nil =>
    intro n
    rfl
  | cons e rest ih =>
    intro n
    cases e with
    | timeout =>
      simp only [sendReceiveRun, sendsOf_cons_send, sendsOf_cons_wait,
        waitsOf_cons_send, waitsOf_cons_wait, List.length_cons]
      rw [ih]
    | packet p =>
      simp only [sendReceiveRun]
      cases hq : parser p with
      | ok t => rfl
      | error e2 =>
        cases e2 with
        | failure m2 => rfl
        | invalid =>
          simp only [sendsOf_cons_send, sendsOf_cons_wait, sendsOf_cons_discard,
            waitsOf_cons_send, waitsOf_cons_wait, waitsOf_cons_discard, List.length_cons]
          rw [ih]

theorem sendReceiveRun_pending {T : Type} (parser : List Nat → Except UdpErr T)
    (msg : List Nat) :
    ∀ (events : List UdpEvent) (n : Nat),
      (∀ p, UdpEvent.packet p ∈ events → parser p = .error .invalid) →
      (sendReceiveRun parser msg n events).2 = UdpOutcome.pending := by
  intro events
  induction events with
  | nil =>
    intro n _
    rfl
  | cons e rest ih =>
    intro n hall
    cases e with
    | timeout =>
      simp only [sendReceiveRun]
      exact ih _ (fun p hp => hall p (List.mem_cons_of_mem _ hp))
    | packet p =>
      have hp := hall p (List.mem_cons_self _ _)
      simp only [sendReceiveRun]
      rw [hp]
      exact ih _ (fun q hq => hall q (List.mem_cons_of_mem _ hq))

/-! ## Claim C4 -/

/-- C4 counterexample.  One structurally invalid packet (no timeout at
all) makes `send_receive` resend the datagram and start a fresh full-length
wait: the trace for a single bad packet holds two sends and two 15-second
waits, refuting the claim that a discarded packet leaves the socket
waiting within the current attempt (under the claim, a resend happens only
on a timeout, so one send would occur here). -/
theorem udp_retransmit_c4_cex :
    (sendReceive (parseConnectionResponse 5) [7] [.packet [9]]).1
      = [.send [7], .wait 15, .discard, .send [7], .wait 15] ∧
    countTimeouts [UdpEvent.packet [9]] = 0 ∧
    (sendsOf (sendReceive (parseConnectionResponse 5) [7] [.packet [9]]).1).length = 2 :=
  ⟨rfl, rfl, rfl⟩

/-- C4 amended: in every `send_receive` run, (a) the `j`-th wait lasts
`15 * 2^n` seconds where `n` is the number of receive timeouts so far
clamped to 8, so every wait is at most 3840 s; (b) every sent datagram is
the original message; (c) each wait is preceded by its own (re)send — a
received packet that fails parsing or carries a mismatched transaction ID
is discarded without raising an error and without advancing `n`, the
datagram being resent and a fresh `15 * 2^n`-second wait beginning; and
(d) a run seeing only invalid packets never raises. -/
theorem udp_retransmit_c4_amended {T : Type} (parser : List Nat → Except UdpErr T)
    (msg : List Nat) (events : List UdpEvent) :
    (∀ j d, (waitsOf (sendReceive parser msg events).1).get? j = some d →
      d = 15 * 2 ^ (min (countTimeouts (events.take j)) 8) ∧ d ≤ 3840) ∧
    (∀ m, m ∈ sendsOf (sendReceive parser msg events).1 → m = msg) ∧
    (sendsOf (sendReceive parser msg events).1).length
      = (waitsOf (sendReceive parser msg events).1).length ∧
    ((∀ p, UdpEvent.packet p ∈ events → parser p = .error .invalid) →
      (sendReceive parser msg events).2 = UdpOutcome.pending) := by
  refine ⟨?_, ?_, ?_, ?_⟩
  · intro j d hd
    have h := sendReceiveRun_waits parser msg events 0 (by omega) j d hd
    rw [Nat.zero_add] at h
    refine ⟨h, ?_⟩
    rw [h]
    have hle : min (countTimeouts (events.take j)) 8 ≤ 8 := Nat.min_le_right _ _
    calc 15 * 2 ^ (min (countTimeouts (events.take j)) 8)
        ≤ 15 * 2 ^ 8 := Nat.mul_le_mul_left 15 (Nat.pow_le_pow_right (by omega) hle)
      _ = 3840 := by norm_num
  · exact sendReceiveRun_sends parser msg events 0
  · exact sendReceiveRun_sends_waits_length parser msg events 0
  · exact sendReceiveRun_pending parser msg events 0

/-- Witness for the amended C4 at the run with one timeout followed by one
bad packet: the waits are 15 s then 30 s twice, all three sends carry the
datagram, and the run is still pending. -/
theorem udp_retransmit_c4_amended_witness :
    (15 = 15 * 2 ^ (min (countTimeouts (List.take 0
        [UdpEvent.timeout, UdpEvent.packet [9]])) 8) ∧ 15 ≤ 3840) ∧
    (sendsOf (sendReceive (parseConnectionResponse 5) [7]
        [UdpEvent.timeout, UdpEvent.packet [9]]).1).length
      = (waitsOf (sendReceive (parseConnectionResponse 5) [7]
        [UdpEvent.timeout, UdpEvent.packet [9]]).1).length ∧
    (sendReceive (parseConnectionResponse 5) [7]
        [UdpEvent.timeout, UdpEvent.packet [9]]).2 = UdpOutcome.pending :=
  ⟨(udp_retransmit_c4_amended (parseConnectionResponse 5) [7]
      [UdpEvent.timeout, UdpEvent.packet [9]]).1 0 15 rfl,
   (udp_retransmit_c4_amended (parseConnectionResponse 5) [7]
      [UdpEvent.timeout, UdpEvent.packet [9]]).2.2.1,
   (udp_retransmit_c4_amended (parseConnectionResponse 5) [7]
      [UdpEvent.timeout, UdpEvent.packet [9]]).2.2.2
     (by intro p hp; simp only [List.mem_cons] at hp
         rcases hp with h | h | h
         · exact absurd h (by simp)
         · rw [show p = [9] from by injection h]
           rfl
         · simp at h)⟩

/-! ## Claim C9 -/

/-- C9: for every UDP tracker response packet whose action field equals 3
(and long enough for `unpack_from("!ii")`), parsing raises
`TrackerFailure` carrying the packet's trailing bytes (which the code
renders as text with the total `decode("utf-8", "replace")`) — before and
regardless of any transaction-ID comparison, so an error packet with a
mismatched transaction ID aborts the `send_receive` exchange instead of
being silently discarded. -/
theorem udp_error_packet_c9 (txid : Int) (resp : List Nat)
    (hlen : 8 ≤ resp.length) (hact : readI32 resp 0 = 3) :
    raiseErrorResponse resp = .error (.failure (resp.drop 8)) ∧
    parseConnectionResponse txid resp = .error (.failure (resp.drop 8)) ∧
    ∀ (msg : List Nat) (rest : List UdpEvent),
      (sendReceive (parseConnectionResponse txid) msg (.packet resp :: rest)).2
        = UdpOutcome.failure (resp.drop 8) := by
  have h1 : raiseErrorResponse resp = .error (.failure (resp.drop 8)) := by
    unfold raiseErrorResponse
    rw [if_neg (by omega), if_pos hact]
  have h2 : parseConnectionResponse txid resp = .error (.failure (resp.drop 8)) := by
    unfold parseConnectionResponse
    rw [h1]
  refine ⟨h1, h2, ?_⟩
  intro msg rest
  unfold sendReceive
  simp only [sendReceiveRun]
  rw [h2]

/-- Witness for C9 at an action-3 packet whose transaction-ID field (5)
differs from the pending transaction (0): the parse still raises the
failure with the trailing bytes. -/
theorem udp_error_packet_c9_witness :
    parseConnectionResponse 0 [0, 0, 0, 3, 0, 0, 0, 5, 110, 111]
      = .error (.failure [110, 111]) :=
  (udp_error_packet_c9 0 [0, 0, 0, 3, 0, 0, 0, 5, 110, 111]
    (by simp) (by decide)).2.1

/-! ## Peer wire: `peer/core.py` and `peer/messages.py`

`Message.parse` reads `blob[4]` as the message type (an `IndexError` when
the blob is only the 4 length bytes) and dispatches on the registered
`TYPE` values, each variant validating its payload length
(`ValueError` otherwise). -/

inductive MessageV where
  | choke
  | unchoke
  | interested
  | notInterested
  | haveAll
  | haveNone
  | haveMsg (index : Nat)
  | bitfield (payload : List Nat)
  | request (index begin2 length : Nat)
  | piece (index begin2 : Nat) (data : List Nat)
  | cancel (index begin2 length : Nat)
  | port (port : Nat)
  | reject (index begin2 length : Nat)
  | allowedFast (index : Nat)
  | suggest (index : Nat)
  | extendedMsg (msg_id : Nat) (payload : List Nat)

/-- Python exception classes escaping `Message.parse`: `ValueError`
(caught by `aiter_messages` and turned into a peer error) and
`IndexError` from `blob[4]` (uncaught). -/
inductive PyExc where
  | valueError
  | indexError

/-- Embedding of `Message.parse`: `mtype = blob[4]`, `payload = blob[5:]`
(the length prefix `blob[:4]` is ignored by the parser), dispatching on the
unique `TYPE` constants of the message classes with their payload-length
checks. -/
def messageParse (blob : List Nat) : Except PyExc MessageV :=
  match blob.drop 4 with
  | [] => .error .indexError
  | mtype :: payload =>
    if mtype = 0 then .ok .choke
    else if mtype = 1 then .ok .unchoke
    else if mtype = 2 then .ok .interested
    else if mtype = 3 then .ok .notInterested
    else if mtype = 14 then .ok .haveAll
    else if mtype = 15 then .ok .haveNone
    else if mtype = 4 then
      if payload.length = 4 then .ok (.haveMsg (beNat payload)) else .error .valueError
    else if mtype = 5 then .ok (.bitfield payload)
    else if mtype = 6 then
      if payload.length = 12 then
        .ok (.request (beNat (payload.take 4)) (beNat ((payload.drop 4).take 4))
          (beNat (payload.drop 8)))
      else .error .valueError
    else if mtype = 7 then
      if payload.length < 8 then .error .valueError
      else .ok (.piece (beNat (payload.take 4)) (beNat ((payload.drop 4).take 4))
        (payload.drop 8))
    else if mtype = 8 then
      if payload.length = 12 then
        .ok (.cancel (beNat (payload.take 4)) (beNat ((payload.drop 4).take 4))
          (beNat (payload.drop 8)))
      else .error .valueError
    else if mtype = 9 then
      if payload.length = 2 then .ok (.port (beNat payload)) else .error .valueError
    else if mtype = 16 then
      if payload.length = 12 then
        .ok (.reject (beNat (payload.take 4)) (beNat ((payload.drop 4).take 4))
          (beNat (payload.drop 8)))
      else .error .valueError
    else if mtype = 17 then
      if payload.length = 4 then .ok (.allowedFast (beNat payload)) else .error .valueError
    else if mtype = 13 then
      if payload.length = 4 then .ok (.suggest (beNat payload)) else .error .valueError
    else if mtype = 20 then
      match payload with
      | m :: rest2 => .ok (.extendedMsg m rest2)
      | [] => .error .valueError
    else .error .valueError

/-- How a run of `PeerConnection.aiter_messages` over a finite stream
ends. -/
inductive IterEnd where
  | clean
  | tooLarge
  | invalidMsg
  | closedEarly
  | nameError
  | indexError
  | fuelOut

/-- Embedding of `PeerConnection.aiter_messages` over a byte stream, with
Python local-variable semantics for `payload`: the generator's `payload`
local persists across loop iterations and starts unbound (`none`).  Each
iteration reads the 4-byte length prefix (a failed read returns cleanly),
rejects lengths above `MAX_PEER_MSG_LEN = 65535`, reads the body — except
that a zero length (keepalive) only logs, leaving `payload` untouched —
and then evaluates `Message.parse(blen + payload)` unconditionally: with
`payload` unbound this is a `NameError`; a `ValueError` becomes a fatal
peer error; otherwise the parsed message is yielded and the loop
continues. -/
def aiterMessages (fuel : Nat) (stream : List Nat) (payload : Option (List Nat)) :
    List MessageV × IterEnd :=
  match fuel with
  | 0 => ([], .fuelOut)
  | f + 1 =>
    if stream.length < 4 then ([], .clean)
    else
      if 65535 < beNat (stream.take 4) then ([], .tooLarge)
      else
        match (if beNat (stream.take 4) = 0 then .ok (payload, stream.drop 4)
               else if (stream.drop 4).length < beNat (stream.take 4) then .error ()
               else .ok (some ((stream.drop 4).take (beNat (stream.take 4))),
                 (stream.drop 4).drop (beNat (stream.take 4))) :
               Except Unit (Option (List Nat) × List Nat)) with
        | .error _ => ([], .closedEarly)
        | .ok (payload2, rest2) =>
          match payload2 with
          | none => ([], .nameError)
          | some pl =>
            match messageParse (stream.take 4 ++ pl) with
            | .error .valueError => ([], .invalidMsg)
            | .error .indexError => ([], .indexError)
            | .ok m =>
              (m :: (aiterMessages f rest2 (some pl)).1, (aiterMessages f rest2 (some pl)).2)

/-! ## Claim C5 -/

/-- C5 evaluated at its failing inputs.  The keepalive branch of
`aiter_messages` lacks a `continue`: after logging it falls through to
`Message.parse(blen + payload)`.  (a) When the first frame of a stream is
a keepalive (`00 00 00 00`), the loop crashes with a `NameError` on the
unbound local `payload` instead of producing no message and reading on.
(b) After a one-byte `unchoke` message, a keepalive frame re-parses the
stale previous payload and yields a second spurious `unchoke` instead of
nothing.  The claim (and the spec) say a zero-length frame yields no
message and the loop proceeds without error. -/
theorem peer_keepalive_c5_eval :
    aiterMessages 3 [0, 0, 0, 0] none = ([], .nameError) ∧
    aiterMessages 3 [0, 0, 0, 1, 1, 0, 0, 0, 0] none
      = ([.unchoke, .unchoke], .clean) :=
  ⟨rfl, rfl⟩

/-! ## BEP 9 request-loop dispatch: `PeerConnection.get_info` -/

/-- Errors with which `self.error(...)` aborts the metadata exchange in the
message loop of `get_info` (each raises a `PeerError`). -/
inductive MetaErr where
  | invalidMessage
  | wrongPieceData
  | totalSizeMismatch
  | rejectWrongPiece
  | unexpectedType

/-- What the `get_info` loop body does with one incoming `ut_metadata`
message while request `i` is outstanding. -/
inductive MetaAction where
  | fail (e : MetaErr)
  | acceptPiece (payload : List Nat)
  | sendReject (piece : Int)
  | keepWaiting

/-- Embedding of the message dispatch in `PeerConnection.get_info`
(`peer/core.py` lines 284-346) for the outstanding request `i`: a parse
`ValueError` is fatal; a data message must be for piece `i` with a
matching `total_size`, and is then accepted (fed to the info piecer, the
loop breaking to the next request); a reject for a different piece is
fatal, while a reject for piece `i` only writes a debug log and the loop
keeps waiting for further messages; an incoming request is answered with a
reject and the loop keeps waiting; any other known type is fatal.
(The `except UnknownBEP9MsgType` continue-branch in `get_info` is
unreachable against this repository's `BEP9Message.from_extended_payload`,
which accepts unknown `msg_type` values instead of raising.) -/
def handleBep9 (i : Int) (piecerTotal : Int) (parsed : Except BEP9Err BEP9Message) :
    MetaAction :=
  match parsed with
  | .error _ => .fail .invalidMessage
  | .ok bm =>
    if bm.msg_type = 1 then
      if bm.piece ≠ i then .fail .wrongPieceData
      else if (match bm.total_size with
        | some ts => ts != piecerTotal
        | none => false) then .fail .totalSizeMismatch
      else .acceptPiece bm.payload
    else if bm.msg_type = 2 then
      if bm.piece ≠ i then .fail .rejectWrongPiece
      else .keepWaiting
    else if bm.msg_type = 0 then
      .sendReject bm.piece
    else .fail .unexpectedType

/-! ## Claim C2 -/

/-- C2 evaluated at its failing input.  When the peer answers the
outstanding request for piece 0 with `reject{piece=0}`
(payload `b"d8:msg_typei2e5:piecei0ee"`), the loop body only logs and
keeps waiting for more messages — it does not abort with a peer error for
any reason, contrary to the claim (and the spec's
"On reject{piece=k}: fail the connection"), and contrary to the code's own
stated intent to "error if it can't give it to us"; with no error and no
progress the request loop waits forever for a piece that was just
refused. -/
theorem peer_reject_c2_eval :
    handleBep9 0 100 (BEP9Message.fromExtendedPayload
        [100, 56, 58, 109, 115, 103, 95, 116, 121, 112, 101, 105, 50, 101,
         53, 58, 112, 105, 101, 99, 101, 105, 48, 101, 101])
      = .keepWaiting ∧
    ∀ e, handleBep9 0 100 (BEP9Message.fromExtendedPayload
        [100, 56, 58, 109, 115, 103, 95, 116, 121, 112, 101, 105, 50, 101,
         53, 58, 112, 105, 101, 99, 101, 105, 48, 101, 101])
      ≠ .fail e := by
  refine ⟨rfl, ?_⟩
  intro e h
  rw [show handleBep9 0 100 (BEP9Message.fromExtendedPayload
      [100, 56, 58, 109, 115, 103, 95, 116, 121, 112, 101, 105, 50, 101,
       53, 58, 112, 105, 101, 99, 101, 105, 48, 101, 101])
    = .keepWaiting from rfl] at h
  simp at h
